import Mathlib

/-!
# Chair assignment simulator (`src/DSA/temp.cpp`, `Solution::smallestChair`)

A shallow embedding of the single function of the repository and a
verification of its behaviour.

* `times` (`vector<vector<int>>`, every row holding two integers) is a
  `List (Int × Int)`: row `i` is `(times[i][0], times[i][1])`.
* The loop counter `i` (and hence the `person` component of an event and the
  index into `chairMap`) ranges over `0 .. N-1`; it is a `Nat`.
* Timestamps, chairs, the `-1` sentinel of `chairMap` and the returned value
  are `Int`.  No arithmetic is performed on them by the source, only
  comparisons, so no overflow can occur (`N` is taken to fit the `int` loop
  counter).
* A `std::priority_queue` with `greater<>` is its sorted content: `push` is an
  ordered insertion, `top` the head and `pop` the tail.  The order on events
  is the lexicographic order of `std::pair<int,int>`.
* `top`/`pop` of an empty queue and an out-of-range `operator[]` are undefined
  behaviour in C++; the embedding makes them an explicit `Outcome.undefined`.
-/

namespace ChairSim

/-- An entry of `orderQueue`: `(time, person)`. -/
abbrev Event := Int × Nat

/-- The order of `std::pair<int,int>`: first component, then second. -/
def evLe (a b : Event) : Prop := a.1 < b.1 ∨ (a.1 = b.1 ∧ a.2 ≤ b.2)

instance evLe_decidable : DecidableRel evLe := fun a b => by
  unfold evLe
  exact inferInstance

/-- Strict version of `evLe`. -/
def evLt (a b : Event) : Prop := a.1 < b.1 ∨ (a.1 = b.1 ∧ a.2 < b.2)

instance evLt_decidable : DecidableRel evLt := fun a b => by
  unfold evLt
  exact inferInstance

/-- Insertion `orderQueue.emplace(time, person)` into the min-queue of events. -/
def pushEvent (e : Event) (q : List Event) : List Event :=
  List.orderedInsert evLe e q

/-- Insertion `chair.push(c)` into the min-queue of free chairs. -/
def pushChair (c : Int) (q : List Int) : List Int :=
  List.orderedInsert (fun a b : Int => a ≤ b) c q

/-- Arrival time `times[i][0]` (the default is never used for `i < N`). -/
def arrival (times : List (Int × Int)) (i : Nat) : Int := (times.getD i (0, 0)).1

/-- Leaving time `times[i][1]` (the default is never used for `i < N`). -/
def departure (times : List (Int × Int)) (i : Nat) : Int := (times.getD i (0, 0)).2

/-- The arrival event `(times[i][0], i)` of person `i`. -/
def arrKey (times : List (Int × Int)) (i : Nat) : Event := (arrival times i, i)

/-- The departure event `(times[i][1], i)` of person `i`. -/
def depKey (times : List (Int × Int)) (i : Nat) : Event := (departure times i, i)

/-- All `2N` insertions in the order lines 8-11 perform them: for each
`i = 0 .. N-1`, first the departure `(times[i][1], i)`, then the arrival
`(times[i][0], i)`. -/
def insertions (times : List (Int × Int)) : List Event :=
  (List.range times.length).flatMap (fun i => [depKey times i, arrKey times i])

/-- The content of `orderQueue` after inserting the events `es` one by one. -/
def buildQueue (es : List Event) : List Event :=
  es.foldl (fun q e => pushEvent e q) []

/-- The free pool after lines 14-16: `chair.push(i)` for `i = 0 .. N-1`. -/
def seedChairs (n : Nat) : List Int :=
  (List.range n).foldl (fun q i => pushChair (i : Int) q) []

/-- The two kinds of undefined behaviour the loop body could run into. -/
inductive Fault where
  | emptyPool
  | chairMapIndex
  deriving DecidableEq, Repr

/-- The result of a call. -/
inductive Outcome where
  | returned (value : Int)
  | undefined (f : Fault)
  deriving DecidableEq, Repr

/-- The effect of one execution of the loop body (lines 18-28) after the event
has been popped. -/
inductive StepResult where
  | next (chairMap chair : List Int)
  | ret (value : Int) (chairMap chair : List Int)
  | undefined (f : Fault)
  deriving DecidableEq, Repr

/-- Lines 20-28 for the popped event `ev`. -/
def loopBody (targetFriend : Int) (ev : Event) (chairMap chair : List Int) : StepResult :=
  match chairMap[ev.2]? with
  | none => .undefined .chairMapIndex
  | some v =>
    if v = -1 then
      match chair with
      | [] => .undefined .emptyPool
      | c :: pool =>
        if (ev.2 : Int) = targetFriend then .ret c (chairMap.set ev.2 c) pool
        else .next (chairMap.set ev.2 c) pool
    else .next (chairMap.set ev.2 (-1)) (pushChair v chair)

/-- The `while` loop of lines 17-30, by recursion on the content of
`orderQueue`. -/
def loop (targetFriend : Int) : List Event → List Int → List Int → Outcome
  | [], _, _ => .returned (-1)
  | ev :: rest, chairMap, chair =>
    match loopBody targetFriend ev chairMap chair with
    | .next chairMap' chair' => loop targetFriend rest chairMap' chair'
    | .ret value _ _ => .returned value
    | .undefined f => .undefined f

/-- The local state of the function at a point of the run. -/
structure Config where
  orderQueue : List Event
  chairMap : List Int
  chair : List Int
  deriving DecidableEq, Repr

/-- The configurations the loop goes through: the one at each evaluation of
the loop condition, and the one at the `return` of line 24. -/
def trace (targetFriend : Int) : List Event → List Int → List Int → List Config
  | [], chairMap, chair => [⟨[], chairMap, chair⟩]
  | ev :: rest, chairMap, chair =>
    ⟨ev :: rest, chairMap, chair⟩ ::
      match loopBody targetFriend ev chairMap chair with
      | .next chairMap' chair' => trace targetFriend rest chairMap' chair'
      | .ret _ chairMap' chair' => [⟨rest, chairMap', chair'⟩]
      | .undefined _ => []

/-- The function on an arbitrary sequence of queue insertions for `n` people. -/
def simulate (n : Nat) (es : List Event) (targetFriend : Int) : Outcome :=
  loop targetFriend (buildQueue es) (List.replicate n (-1)) (seedChairs n)

/-- The configurations of `simulate`. -/
def simulateTrace (n : Nat) (es : List Event) (targetFriend : Int) : List Config :=
  trace targetFriend (buildQueue es) (List.replicate n (-1)) (seedChairs n)

/-- `Solution::smallestChair`. -/
def smallestChair (times : List (Int × Int)) (targetFriend : Int) : Outcome :=
  simulate times.length (insertions times) targetFriend

/-- The configurations of a call of `smallestChair`. -/
def runTrace (times : List (Int × Int)) (targetFriend : Int) : List Config :=
  simulateTrace times.length (insertions times) targetFriend

/-- The input contract: every row has `arrival < departure`. -/
def Valid (times : List (Int × Int)) : Prop := ∀ row ∈ times, row.1 < row.2

instance Valid_decidable (times : List (Int × Int)) : Decidable (Valid times) := by
  unfold Valid
  exact inferInstance

/-! ### The event-free reference -/

/-- Person `j` occupies a chair when `k` arrives:
`(arrival_j, j) < (arrival_k, k) < (departure_j, j)` lexicographically. -/
def Blocks (times : List (Int × Int)) (j k : Nat) : Prop :=
  evLt (arrKey times j) (arrKey times k) ∧ evLt (arrKey times k) (depKey times j)

instance Blocks_decidable (times : List (Int × Int)) (j k : Nat) :
    Decidable (Blocks times j k) := by
  unfold Blocks
  exact inferInstance

/-- The persons that occupy a chair when `k` arrives. -/
def blockers (times : List (Int × Int)) (k : Nat) : List Nat :=
  (List.range times.length).filter (fun j => decide (Blocks times j k))

/-- Search for the least natural number not in `held`, starting at `c`. -/
def leastAbsentFrom (held : List Nat) : Nat → Nat → Nat
  | 0, c => c
  | fuel + 1, c => if c ∈ held then leastAbsentFrom held fuel (c + 1) else c

/-- The least natural number that is not a member of `held`. -/
def leastAbsent (held : List Nat) : Nat :=
  leastAbsentFrom held held.length 0

/-- The number of persons whose arrival key is smaller than that of `k`:
the position of `k` in the arrival order. -/
def rank (times : List (Int × Int)) (k : Nat) : Nat :=
  (List.range times.length).countP (fun j => decide (evLt (arrKey times j) (arrKey times k)))

/-- The reference seat, unfolded `fuel` times along the arrival order. -/
def seatFuel (times : List (Int × Int)) : Nat → Nat → Nat
  | 0, _ => 0
  | fuel + 1, k => leastAbsent ((blockers times k).map (seatFuel times fuel))

/-- The reference: `seat k` is the least chair that no person `j` with
`Blocks times j k` has as `seat j`.  The recursion descends along the arrival
order, whose length is `N`. -/
def seat (times : List (Int × Int)) (k : Nat) : Nat :=
  seatFuel times times.length k

/-! ### The queue order is a total order -/

instance evLe_isTotal : IsTotal Event evLe :=
  ⟨fun a b => by unfold evLe; omega⟩

instance evLe_isTrans : IsTrans Event evLe :=
  ⟨fun a b c h1 h2 => by unfold evLe at *; omega⟩

instance evLe_isAntisymm : IsAntisymm Event evLe :=
  ⟨fun a b h1 h2 => by unfold evLe at *; exact Prod.ext (by omega) (by omega)⟩

/-! ### State invariants -/

/-- The entries of `chairMap` that hold a chair. -/
def assigned : List Int → List Int
  | [] => []
  | v :: vs => if v = -1 then assigned vs else v :: assigned vs

/-- The chairs `0 .. n-1`. -/
def allChairs (n : Nat) : List Int := (List.range n).map (fun i : Nat => (i : Int))

/-- The state invariant for `n` people: `chairMap` has `n` entries, the queued
events name persons below `n`, the pool is ordered, and the pool together with
the assigned chairs is a rearrangement of `0 .. n-1`. -/
def GInv (n : Nat) (c : Config) : Prop :=
  c.chairMap.length = n ∧ (∀ e ∈ c.orderQueue, e.2 < n) ∧
  c.chair.Sorted (fun a b : Int => a ≤ b) ∧
  (c.chair ++ assigned c.chairMap).Perm (allChairs n)

/-- The state invariant on a valid input: besides `GInv`, the processed events
`pre` are a prefix of the initial queue, a person holds a chair exactly between
the processing of their arrival and of their departure, and the chair a person
holds is the one the reference gives them. -/
def RInv (times : List (Int × Int)) (c : Config) : Prop :=
  GInv times.length c ∧
  ∃ pre, buildQueue (insertions times) = pre ++ c.orderQueue ∧
    (∀ i, i < times.length →
      (c.chairMap[i]? ≠ some (-1) ↔ arrKey times i ∈ pre ∧ depKey times i ∉ pre)) ∧
    (∀ i v, i < times.length → c.chairMap[i]? = some v → v ≠ -1 → v = (seat times i : Int))

/-- The number of events the loop has processed when the run ends: the run has
one configuration per loop head, and one more at the `return` of line 24. -/
def eventsProcessed (times : List (Int × Int)) (targetFriend : Int) : Nat :=
  (runTrace times targetFriend).length - 1

/-- An event with its kind: `(time, kind, person)`, the kind being `0` for a
departure and `1` for an arrival. -/
abbrev KindEvent := Int × Nat × Nat

/-- The `(time, person)` entry of a kind-tagged event. -/
def untag (e : KindEvent) : Event := (e.1, e.2.2)

/-- The order of the variant: timestamp first, then departures before
arrivals, then person index. -/
def kindLe (a b : KindEvent) : Prop :=
  a.1 < b.1 ∨ (a.1 = b.1 ∧ (a.2.1 < b.2.1 ∨ (a.2.1 = b.2.1 ∧ a.2.2 ≤ b.2.2)))

instance kindLe_decidable : DecidableRel kindLe := fun a b => by
  unfold kindLe
  exact inferInstance

instance kindLe_isTotal : IsTotal KindEvent kindLe :=
  ⟨fun a b => by unfold kindLe; omega⟩

instance kindLe_isTrans : IsTrans KindEvent kindLe :=
  ⟨fun a b c h1 h2 => by unfold kindLe at *; omega⟩

/-- The `2N` events of the input with their kinds, in the order of lines 8-11. -/
def kindInsertions (times : List (Int × Int)) : List KindEvent :=
  (List.range times.length).flatMap
    (fun i => [(departure times i, 0, i), (arrival times i, 1, i)])

/-- The queue content of the variant: the kind-tagged events in `kindLe` order. -/
def buildKindQueue (es : List KindEvent) : List KindEvent :=
  es.foldl (fun q e => List.orderedInsert kindLe e q) []

/-- The variant of `smallestChair` named by the specification: the same loop
over the events ordered by `(timestamp, departures before arrivals, person)`. -/
def smallestChairDeparturesFirst (times : List (Int × Int)) (targetFriend : Int) : Outcome :=
  loop targetFriend ((buildKindQueue (kindInsertions times)).map untag)
    (List.replicate times.length (-1)) (seedChairs times.length)

/-- The kind-tagged events of the input whose `(time, person)` key is at most
`key`. -/
def eventsUpTo (times : List (Int × Int)) (key : Event) : List KindEvent :=
  (kindInsertions times).filter (fun e => decide (evLe (untag e) key))

/-! ### The order on events -/

theorem evLe_refl (a : Event) : evLe a a := Or.inr ⟨rfl, le_refl _⟩

theorem evLe_total (a b : Event) : evLe a b ∨ evLe b a := by
  unfold evLe
  omega

theorem evLe_trans {a b c : Event} (h1 : evLe a b) (h2 : evLe b c) : evLe a c := by
  unfold evLe at *
  omega

theorem evLe_antisymm {a b : Event} (h1 : evLe a b) (h2 : evLe b a) : a = b := by
  unfold evLe at *
  apply Prod.ext <;> omega

theorem evLt_iff_not_evLe {a b : Event} : evLt a b ↔ ¬ evLe b a := by
  unfold evLe evLt
  omega

theorem evLt_iff_le_ne {a b : Event} : evLt a b ↔ evLe a b ∧ a ≠ b := by
  constructor
  · intro h
    refine ⟨?_, ?_⟩
    · unfold evLe evLt at *
      omega
    · rintro rfl
      unfold evLt at h
      omega
  · rintro ⟨h1, h2⟩
    by_contra h3
    apply h2
    apply evLe_antisymm h1
    unfold evLe evLt at *
    omega

theorem evLt_irrefl (a : Event) : ¬ evLt a a := by
  unfold evLt
  omega

theorem evLt_trans {a b c : Event} (h1 : evLt a b) (h2 : evLt b c) : evLt a c := by
  unfold evLt at *
  omega

theorem evLt_of_lt_of_le {a b c : Event} (h1 : evLt a b) (h2 : evLe b c) : evLt a c := by
  unfold evLt evLe at *
  omega

theorem evLt_asymm {a b : Event} (h1 : evLt a b) (h2 : evLt b a) : False := by
  unfold evLt at *
  omega

/-! ### The two priority queues -/

theorem buildQueue_perm (es : List Event) : (buildQueue es).Perm es := by
  have key : ∀ (es q : List Event),
      (es.foldl (fun q e => pushEvent e q) q).Perm (es ++ q) := by
    intro es
    induction es with
    | nil => intro q; simp
    | cons e es ih =>
      intro q
      simp only [List.foldl_cons]
      refine (ih _).trans ?_
      have h1 : (pushEvent e q).Perm (e :: q) := List.perm_orderedInsert _ _ _
      refine (List.Perm.append_left es h1).trans ?_
      exact (List.perm_middle : (es ++ e :: q).Perm (e :: (es ++ q)))
  simpa [buildQueue] using key es []

theorem buildQueue_sorted (es : List Event) : (buildQueue es).Sorted evLe := by
  have key : ∀ (es q : List Event), q.Sorted evLe →
      (es.foldl (fun q e => pushEvent e q) q).Sorted evLe := by
    intro es
    induction es with
    | nil => intro q hq; exact hq
    | cons e es ih =>
      intro q hq
      simp only [List.foldl_cons]
      exact ih _ (List.Sorted.orderedInsert e q hq)
  exact key es [] List.sorted_nil

/-- The queue content depends on the multiset of insertions only. -/
theorem buildQueue_congr {es es' : List Event} (h : es'.Perm es) :
    buildQueue es' = buildQueue es :=
  List.eq_of_perm_of_sorted
    (((buildQueue_perm es').trans h).trans (buildQueue_perm es).symm)
    (buildQueue_sorted es') (buildQueue_sorted es)

theorem pushChair_perm (c : Int) (q : List Int) : (pushChair c q).Perm (c :: q) :=
  List.perm_orderedInsert _ _ _

theorem pushChair_sorted (c : Int) (q : List Int) (h : q.Sorted (fun a b : Int => a ≤ b)) :
    (pushChair c q).Sorted (fun a b : Int => a ≤ b) :=
  List.Sorted.orderedInsert c q h

theorem seedChairs_perm (n : Nat) :
    (seedChairs n).Perm ((List.range n).map (fun i : Nat => (i : Int))) := by
  induction n with
  | zero => simp [seedChairs]
  | succ n ih =>
    have h : seedChairs (n + 1) = pushChair (n : Int) (seedChairs n) := by
      simp [seedChairs, List.range_succ, List.foldl_append]
    rw [h, List.range_succ, List.map_append]
    refine (pushChair_perm _ _).trans ?_
    refine (List.Perm.cons _ ih).trans ?_
    simpa using (List.perm_append_singleton (n : Int) ((List.range n).map (fun i : Nat => (i : Int)))).symm

theorem seedChairs_sorted (n : Nat) : (seedChairs n).Sorted (fun a b : Int => a ≤ b) := by
  induction n with
  | zero => simp [seedChairs]
  | succ n ih =>
    have h : seedChairs (n + 1) = pushChair (n : Int) (seedChairs n) := by
      simp [seedChairs, List.range_succ, List.foldl_append]
    rw [h]
    exact pushChair_sorted _ _ ih

/-! ### Hoare-style rules for the loop -/

/-- An invariant of the loop body holds at every configuration of the run. -/
theorem trace_forall (t : Int) (P : Config → Prop)
    (hnext : ∀ ev rest cm ch cm' ch', P ⟨ev :: rest, cm, ch⟩ →
      loopBody t ev cm ch = .next cm' ch' → P ⟨rest, cm', ch'⟩)
    (hret : ∀ ev rest cm ch v cm' ch', P ⟨ev :: rest, cm, ch⟩ →
      loopBody t ev cm ch = .ret v cm' ch' → P ⟨rest, cm', ch'⟩) :
    ∀ q cm ch, P ⟨q, cm, ch⟩ → ∀ cfg ∈ trace t q cm ch, P cfg := by
  intro q
  induction q with
  | nil =>
    intro cm ch h cfg hc
    simp only [trace, List.mem_singleton] at hc
    rw [hc]; exact h
  | cons ev rest ih =>
    intro cm ch h cfg hc
    simp only [trace, List.mem_cons] at hc
    rcases hc with hc | hc
    · rw [hc]; exact h
    · cases hb : loopBody t ev cm ch with
      | next cm' ch' =>
        rw [hb] at hc
        exact ih cm' ch' (hnext _ _ _ _ _ _ h hb) cfg hc
      | ret v cm' ch' =>
        rw [hb] at hc
        simp only [List.mem_singleton] at hc
        rw [hc]
        exact hret _ _ _ _ _ _ _ h hb
      | undefined f =>
        rw [hb] at hc
        simp at hc

/-- Partial-correctness rule for the outcome of the loop; as `loop` is a total
function, the conclusion is about the value the call produces. -/
theorem loop_rule (t : Int) (P : Config → Prop) (R : Outcome → Prop)
    (hnext : ∀ ev rest cm ch cm' ch', P ⟨ev :: rest, cm, ch⟩ →
      loopBody t ev cm ch = .next cm' ch' → P ⟨rest, cm', ch'⟩)
    (hret : ∀ ev rest cm ch v cm' ch', P ⟨ev :: rest, cm, ch⟩ →
      loopBody t ev cm ch = .ret v cm' ch' → R (.returned v))
    (hund : ∀ ev rest cm ch f, P ⟨ev :: rest, cm, ch⟩ →
      loopBody t ev cm ch = .undefined f → R (.undefined f))
    (hend : ∀ cm ch, P ⟨[], cm, ch⟩ → R (.returned (-1))) :
    ∀ q cm ch, P ⟨q, cm, ch⟩ → R (loop t q cm ch) := by
  intro q
  induction q with
  | nil =>
    intro cm ch h
    simp only [loop]
    exact hend cm ch h
  | cons ev rest ih =>
    intro cm ch h
    simp only [loop]
    cases hb : loopBody t ev cm ch with
    | next cm' ch' => exact ih cm' ch' (hnext _ _ _ _ _ _ h hb)
    | ret v cm' ch' => exact hret _ _ _ _ _ _ _ h hb
    | undefined f => exact hund _ _ _ _ _ h hb

/-! ### The invariant that holds on every input -/

theorem mem_allChairs {n : Nat} {c : Int} : c ∈ allChairs n ↔ 0 ≤ c ∧ c < n := by
  unfold allChairs
  simp only [List.mem_map, List.mem_range]
  constructor
  · rintro ⟨i, hi, rfl⟩
    omega
  · rintro ⟨h0, h1⟩
    exact ⟨c.toNat, by omega, by omega⟩

theorem allChairs_nodup (n : Nat) : (allChairs n).Nodup := by
  unfold allChairs
  exact (List.nodup_range n).map (fun a b h => by simpa using h)

theorem allChairs_length (n : Nat) : (allChairs n).length = n := by
  simp [allChairs]

theorem assigned_set_assign (cm : List Int) (p : Nat) (c : Int)
    (h : cm[p]? = some (-1)) (hc : c ≠ -1) :
    (assigned (cm.set p c)).Perm (c :: assigned cm) := by
  induction cm generalizing p with
  | nil => simp at h
  | cons x xs ih =>
    cases p with
    | zero =>
      simp only [List.getElem?_cons_zero, Option.some.injEq] at h
      subst h
      simp [assigned, hc]
    | succ p =>
      simp only [List.getElem?_cons_succ] at h
      have := ih p h
      simp only [assigned, List.set_cons_succ]
      by_cases hx : x = -1
      · simp only [hx, if_true]
        exact this
      · simp only [hx, if_false]
        exact (List.Perm.cons x this).trans (List.Perm.swap _ _ _)

theorem assigned_set_release (cm : List Int) (p : Nat) (v : Int)
    (h : cm[p]? = some v) (hv : v ≠ -1) :
    (assigned cm).Perm (v :: assigned (cm.set p (-1))) := by
  induction cm generalizing p with
  | nil => simp at h
  | cons x xs ih =>
    cases p with
    | zero =>
      simp only [List.getElem?_cons_zero, Option.some.injEq] at h
      subst h
      simp [assigned, hv]
    | succ p =>
      simp only [List.getElem?_cons_succ] at h
      have := ih p h
      simp only [assigned, List.set_cons_succ]
      by_cases hx : x = -1
      · simp only [hx, if_true]
        exact this
      · simp only [hx, if_false]
        exact (List.Perm.cons x this).trans (List.Perm.swap _ _ _)

theorem assigned_length_le (cm : List Int) : (assigned cm).length ≤ cm.length := by
  induction cm with
  | nil => simp [assigned]
  | cons x xs ih =>
    simp only [assigned]
    split <;> simp <;> omega

theorem assigned_length_lt (cm : List Int) (p : Nat) (h : cm[p]? = some (-1)) :
    (assigned cm).length < cm.length := by
  induction cm generalizing p with
  | nil => simp at h
  | cons x xs ih =>
    cases p with
    | zero =>
      simp only [List.getElem?_cons_zero, Option.some.injEq] at h
      subst h
      have := assigned_length_le xs
      simp [assigned]
      omega
    | succ p =>
      simp only [List.getElem?_cons_succ] at h
      have := ih p h
      simp only [assigned]
      split <;> simp <;> omega

theorem mem_assigned {cm : List Int} {c : Int} :
    c ∈ assigned cm ↔ c ≠ -1 ∧ ∃ i : Nat, cm[i]? = some c := by
  induction cm with
  | nil => simp [assigned]
  | cons x xs ih =>
    simp only [assigned]
    constructor
    · intro h
      by_cases hx : x = -1
      · simp only [hx, if_true] at h
        obtain ⟨h1, i, hi⟩ := ih.mp h
        exact ⟨h1, i + 1, by simpa using hi⟩
      · simp only [hx, if_false, List.mem_cons] at h
        rcases h with rfl | h
        · exact ⟨hx, 0, by simp⟩
        · obtain ⟨h1, i, hi⟩ := ih.mp h
          exact ⟨h1, i + 1, by simpa using hi⟩
    · rintro ⟨h1, i, hi⟩
      cases i with
      | zero =>
        simp only [List.getElem?_cons_zero, Option.some.injEq] at hi
        subst hi
        simp [h1]
      | succ i =>
        simp only [List.getElem?_cons_succ] at hi
        have := ih.mpr ⟨h1, i, hi⟩
        split
        · exact this
        · exact List.mem_cons_of_mem _ this

/-- The two ways the loop body can go when the index is in range and, on the
assigning branch, the pool is not empty. -/
theorem loopBody_cases (t : Int) (ev : Event) (cm ch : List Int)
    (hidx : ev.2 < cm.length)
    (hpool : cm[ev.2]? = some (-1) → ch ≠ []) :
    (cm[ev.2]? = some (-1) ∧ ∃ c pool, ch = c :: pool ∧
      loopBody t ev cm ch =
        if (ev.2 : Int) = t then .ret c (cm.set ev.2 c) pool
        else .next (cm.set ev.2 c) pool) ∨
    (∃ v, cm[ev.2]? = some v ∧ v ≠ -1 ∧
      loopBody t ev cm ch = .next (cm.set ev.2 (-1)) (pushChair v ch)) := by
  obtain ⟨v, hv⟩ : ∃ v, cm[ev.2]? = some v := ⟨cm[ev.2], by simp [hidx]⟩
  by_cases h : v = -1
  · subst h
    left
    refine ⟨hv, ?_⟩
    cases ch with
    | nil => exact absurd rfl (hpool hv)
    | cons c pool =>
      refine ⟨c, pool, rfl, ?_⟩
      simp [loopBody, hv]
  · right
    refine ⟨v, hv, h, ?_⟩
    simp [loopBody, hv, h]

theorem GInv.pool_ne_nil {n : Nat} {c : Config} (h : GInv n c) {p : Nat}
    (hp : c.chairMap[p]? = some (-1)) : c.chair ≠ [] := by
  obtain ⟨hlen, _, _, hperm⟩ := h
  intro hnil
  have h1 := hperm.length_eq
  rw [hnil, allChairs_length] at h1
  have h2 := assigned_length_lt c.chairMap p hp
  simp at h1
  omega

theorem GInv.cases {n : Nat} (t : Int) {ev : Event} {rest : List Event} {cm ch : List Int}
    (h : GInv n ⟨ev :: rest, cm, ch⟩) :
    (cm[ev.2]? = some (-1) ∧ ∃ c pool, ch = c :: pool ∧
      loopBody t ev cm ch =
        if (ev.2 : Int) = t then .ret c (cm.set ev.2 c) pool
        else .next (cm.set ev.2 c) pool) ∨
    (∃ v, cm[ev.2]? = some v ∧ v ≠ -1 ∧
      loopBody t ev cm ch = .next (cm.set ev.2 (-1)) (pushChair v ch)) := by
  apply loopBody_cases
  · have := h.2.1 ev (List.mem_cons_self _ _)
    rw [h.1]
    exact this
  · intro hp
    exact h.pool_ne_nil hp

/-- The invariant is kept by the assigning branch. -/
theorem GInv.assign {n : Nat} {ev : Event} {rest : List Event} {cm : List Int} {c : Int}
    {pool : List Int} (h : GInv n ⟨ev :: rest, cm, c :: pool⟩)
    (hp : cm[ev.2]? = some (-1)) : GInv n ⟨rest, cm.set ev.2 c, pool⟩ := by
  obtain ⟨hlen, hq, hs, hperm⟩ := h
  simp only at hlen hq hs hperm
  have hc : c ∈ allChairs n := hperm.subset (by simp)
  have hc1 : c ≠ -1 := by
    have := mem_allChairs.mp hc
    omega
  refine ⟨by simpa using hlen, fun e he => hq e (List.mem_cons_of_mem _ he), ?_, ?_⟩
  · exact hs.of_cons
  · simp only
    refine (List.Perm.append_left pool (assigned_set_assign cm ev.2 c hp hc1)).trans ?_
    refine List.perm_middle.trans ?_
    simpa using hperm

/-- The invariant is kept by the releasing branch. -/
theorem GInv.release {n : Nat} {ev : Event} {rest : List Event} {cm ch : List Int} {v : Int}
    (h : GInv n ⟨ev :: rest, cm, ch⟩)
    (hp : cm[ev.2]? = some v) (hv : v ≠ -1) :
    GInv n ⟨rest, cm.set ev.2 (-1), pushChair v ch⟩ := by
  obtain ⟨hlen, hq, hs, hperm⟩ := h
  simp only at hlen hq hs hperm
  refine ⟨by simpa using hlen, fun e he => hq e (List.mem_cons_of_mem _ he), ?_, ?_⟩
  · exact pushChair_sorted _ _ hs
  · simp only
    refine (List.Perm.append_right _ (pushChair_perm v ch)).trans ?_
    refine List.Perm.trans ?_ hperm
    refine List.Perm.trans ?_ (List.Perm.append_left ch (assigned_set_release cm ev.2 v hp hv).symm)
    exact (List.perm_middle : (ch ++ v :: assigned (cm.set ev.2 (-1))).Perm
      (v :: (ch ++ assigned (cm.set ev.2 (-1))))).symm

theorem GInv.next {n : Nat} (t : Int) {ev : Event} {rest : List Event}
    {cm ch cm' ch' : List Int} (h : GInv n ⟨ev :: rest, cm, ch⟩)
    (hb : loopBody t ev cm ch = .next cm' ch') : GInv n ⟨rest, cm', ch'⟩ := by
  rcases h.cases t with ⟨hp, c, pool, rfl, he⟩ | ⟨v, hp, hv, he⟩
  · rw [he] at hb
    split at hb
    · cases hb
    · cases hb
      exact h.assign hp
  · rw [he] at hb
    cases hb
    exact h.release hp hv

theorem GInv.ret {n : Nat} (t : Int) {ev : Event} {rest : List Event}
    {cm ch cm' ch' : List Int} {r : Int} (h : GInv n ⟨ev :: rest, cm, ch⟩)
    (hb : loopBody t ev cm ch = .ret r cm' ch') :
    GInv n ⟨rest, cm', ch'⟩ ∧ (ev.2 : Int) = t ∧ cm[ev.2]? = some (-1) ∧ ch = r :: ch' ∧
      cm' = cm.set ev.2 r := by
  rcases h.cases t with ⟨hp, c, pool, rfl, he⟩ | ⟨v, hp, hv, he⟩
  · rw [he] at hb
    split at hb
    · rename_i ht
      cases hb
      exact ⟨h.assign hp, ht, hp, rfl, rfl⟩
    · cases hb
  · rw [he] at hb
    cases hb

theorem GInv.not_undefined {n : Nat} (t : Int) {ev : Event} {rest : List Event}
    {cm ch : List Int} {f : Fault} (h : GInv n ⟨ev :: rest, cm, ch⟩) :
    loopBody t ev cm ch ≠ .undefined f := by
  intro hb
  rcases h.cases t with ⟨hp, c, pool, rfl, he⟩ | ⟨v, hp, hv, he⟩
  · rw [he] at hb
    split at hb <;> cases hb
  · rw [he] at hb
    cases hb

theorem assigned_replicate (n : Nat) : assigned (List.replicate n (-1)) = [] := by
  induction n with
  | zero => rfl
  | succ n ih => simp [List.replicate_succ, assigned, ih]

/-- The invariant holds when the loop is entered. -/
theorem GInv.init (n : Nat) (es : List Event) (hes : ∀ e ∈ es, e.2 < n) :
    GInv n ⟨buildQueue es, List.replicate n (-1), seedChairs n⟩ := by
  refine ⟨by simp, ?_, seedChairs_sorted n, ?_⟩
  · intro e he
    exact hes e ((buildQueue_perm es).subset he)
  · simp only [assigned_replicate, List.append_nil]
    exact seedChairs_perm n

theorem mem_insertions {times : List (Int × Int)} {e : Event} :
    e ∈ insertions times ↔ ∃ i, i < times.length ∧ (e = depKey times i ∨ e = arrKey times i) := by
  simp [insertions]

theorem GInv.start (times : List (Int × Int)) :
    GInv times.length
      ⟨buildQueue (insertions times), List.replicate times.length (-1), seedChairs times.length⟩ := by
  apply GInv.init
  intro e he
  obtain ⟨i, hi, h | h⟩ := mem_insertions.mp he <;> rw [h] <;> exact hi

theorem trace_length_le (t : Int) : ∀ (q : List Event) (cm ch : List Int),
    (trace t q cm ch).length ≤ q.length + 1 := by
  intro q
  induction q with
  | nil => intro cm ch; simp [trace]
  | cons ev rest ih =>
    intro cm ch
    simp only [trace, List.length_cons]
    cases hb : loopBody t ev cm ch with
    | next cm' ch' =>
      have := ih cm' ch'
      simp only
      omega
    | ret v cm' ch' => simp
    | undefined f => simp

theorem buildQueue_length (es : List Event) : (buildQueue es).length = es.length :=
  (buildQueue_perm es).length_eq

theorem insertions_length (times : List (Int × Int)) :
    (insertions times).length = 2 * times.length := by
  unfold insertions
  generalize times.length = n
  induction n with
  | zero => rfl
  | succ n ih =>
    rw [List.range_succ, List.flatMap_append, List.length_append, ih]
    simp
    omega

/-- With a target that names no person the loop runs through the whole queue. -/
theorem loop_no_target (n : Nat) (t : Int) (ht : t < 0 ∨ (n : Int) ≤ t) :
    ∀ (q : List Event) (cm ch : List Int), GInv n ⟨q, cm, ch⟩ →
      loop t q cm ch = .returned (-1) ∧ (trace t q cm ch).length = q.length + 1 ∧
      ∃ cm' ch', (trace t q cm ch).getLast? = some ⟨[], cm', ch'⟩ := by
  intro q
  induction q with
  | nil =>
    intro cm ch _
    exact ⟨rfl, rfl, cm, ch, rfl⟩
  | cons ev rest ih =>
    intro cm ch h
    have hev : ev.2 < n := h.2.1 ev (List.mem_cons_self _ _)
    cases hb : loopBody t ev cm ch with
    | next cm' ch' =>
      obtain ⟨h1, h2, cm'', ch'', h3⟩ := ih cm' ch' (h.next t hb)
      refine ⟨by simp only [loop, hb, h1], by simp only [trace, hb, List.length_cons, h2],
        cm'', ch'', ?_⟩
      simp only [trace, hb]
      rw [List.getLast?_cons, h3]
      rfl
    | ret v cm' ch' =>
      have := (h.ret t hb).2.1
      omega
    | undefined f => exact absurd hb (h.not_undefined t)

theorem start_queue_length (times : List (Int × Int)) :
    (buildQueue (insertions times)).length = 2 * times.length := by
  rw [buildQueue_length, insertions_length]

/-- No undefined behaviour from a state that satisfies the invariant. -/
theorem loop_defined (n : Nat) (t : Int) (q : List Event) (cm ch : List Int)
    (h : GInv n ⟨q, cm, ch⟩) : ∀ f, loop t q cm ch ≠ .undefined f := by
  refine loop_rule t (GInv n) (fun o => ∀ f, o ≠ .undefined f) ?_ ?_ ?_ ?_ q cm ch h
  · intro ev rest cm ch cm' ch' h hb
    exact h.next t hb
  · intro ev rest cm ch v cm' ch' _ _ f hf
    cases hf
  · intro ev rest cm ch f h hb
    exact absurd hb (h.not_undefined t)
  · intro cm ch _ f hf
    cases hf

theorem runTrace_GInv (times : List (Int × Int)) (t : Int) :
    ∀ cfg ∈ runTrace times t, GInv times.length cfg := by
  refine trace_forall t (GInv times.length) ?_ ?_ _ _ _ (GInv.start times)
  · intro ev rest cm ch cm' ch' h hb
    exact h.next t hb
  · intro ev rest cm ch v cm' ch' h hb
    exact (h.ret t hb).1

theorem assigned_nodup_inj {cm : List Int} (h : (assigned cm).Nodup) {i j : Nat} {c : Int}
    (hi : cm[i]? = some c) (hj : cm[j]? = some c) (hc : c ≠ -1) : i = j := by
  induction cm generalizing i j with
  | nil => simp at hi
  | cons x xs ih =>
    have hxs : (assigned xs).Nodup := by
      simp only [assigned] at h
      split at h
      · exact h
      · exact h.of_cons
    cases i with
    | zero =>
      cases j with
      | zero => rfl
      | succ j =>
        simp only [List.getElem?_cons_zero, Option.some.injEq] at hi
        simp only [List.getElem?_cons_succ] at hj
        subst hi
        simp only [assigned, hc, if_false, List.nodup_cons] at h
        exact absurd (mem_assigned.mpr ⟨hc, j, hj⟩) h.1
    | succ i =>
      cases j with
      | zero =>
        simp only [List.getElem?_cons_zero, Option.some.injEq] at hj
        simp only [List.getElem?_cons_succ] at hi
        subst hj
        simp only [assigned, hc, if_false, List.nodup_cons] at h
        exact absurd (mem_assigned.mpr ⟨hc, i, hi⟩) h.1
      | succ j =>
        simp only [List.getElem?_cons_succ] at hi hj
        rw [ih hxs hi hj]

theorem GInv.nodup {n : Nat} {c : Config} (h : GInv n c) :
    (c.chair ++ assigned c.chairMap).Nodup :=
  (h.2.2.2.nodup_iff).mpr (allChairs_nodup n)

/-- At an assignment the chair taken is the least free one. -/
theorem GInv.least {n : Nat} {q : List Event} {cm pool : List Int} {c : Int}
    (h : GInv n ⟨q, cm, c :: pool⟩) :
    (∀ x ∈ pool, c < x) ∧ 0 ≤ c ∧ c < n ∧ (∀ j : Nat, cm[j]? ≠ some c) ∧
    (∀ c', 0 ≤ c' → c' < c → ∃ j : Nat, j < n ∧ cm[j]? = some c') := by
  have hnd := h.nodup
  obtain ⟨hlen, _, hs, hperm⟩ := h
  simp only at hlen hs hperm hnd
  have hcr : 0 ≤ c ∧ c < n := mem_allChairs.mp (hperm.subset (by simp))
  have hmin : ∀ x ∈ pool, c < x := by
    intro x hx
    have h1 : c ≤ x := List.rel_of_sorted_cons hs x hx
    have h2 : c ≠ x := by
      rintro rfl
      simp only [List.cons_append, List.nodup_cons, List.mem_append] at hnd
      exact hnd.1 (Or.inl hx)
    omega
  refine ⟨hmin, hcr.1, hcr.2, ?_, ?_⟩
  · intro j hj
    have : c ∈ assigned cm := mem_assigned.mpr ⟨by omega, j, hj⟩
    simp only [List.cons_append, List.nodup_cons, List.mem_append] at hnd
    exact hnd.1 (Or.inr this)
  · intro c' h0 h1
    have hmem : c' ∈ (c :: pool) ++ assigned cm :=
      hperm.symm.subset (mem_allChairs.mpr ⟨h0, by omega⟩)
    simp only [List.cons_append, List.mem_cons, List.mem_append] at hmem
    rcases hmem with rfl | hm | hm
    · omega
    · have := hmin c' hm
      omega
    · obtain ⟨_, j, hj⟩ := mem_assigned.mp hm
      refine ⟨j, ?_, hj⟩
      rw [← hlen]
      by_contra hlt
      rw [List.getElem?_eq_none (by omega)] at hj
      cases hj

/-- A value other than `-1` is returned by line 24 at some configuration of the
run. -/
theorem loop_returned_trace (t : Int) (r : Int) : ∀ (q : List Event) (cm ch : List Int),
    loop t q cm ch = .returned r → r ≠ -1 →
    ∃ ev rest cm0 ch0 cm' ch', (⟨ev :: rest, cm0, ch0⟩ : Config) ∈ trace t q cm ch ∧
      loopBody t ev cm0 ch0 = .ret r cm' ch' := by
  intro q
  induction q with
  | nil =>
    intro cm ch h hr
    simp only [loop, Outcome.returned.injEq] at h
    omega
  | cons ev rest ih =>
    intro cm ch h hr
    simp only [loop] at h
    cases hb : loopBody t ev cm ch with
    | next cm' ch' =>
      rw [hb] at h
      obtain ⟨ev', rest', cm0, ch0, cm1, ch1, hm, hl⟩ := ih cm' ch' h hr
      refine ⟨ev', rest', cm0, ch0, cm1, ch1, ?_, hl⟩
      simp only [trace, hb]
      exact List.mem_cons_of_mem _ hm
    | ret v cm' ch' =>
      rw [hb] at h
      simp only [Outcome.returned.injEq] at h
      subst h
      exact ⟨ev, rest, cm, ch, cm', ch', by simp [trace], hb⟩
    | undefined f =>
      rw [hb] at h
      cases h

/-! ### Facts about valid inputs and the initial queue -/

theorem arrival_lt_departure {times : List (Int × Int)} (hv : Valid times) {i : Nat}
    (hi : i < times.length) : arrival times i < departure times i := by
  unfold arrival departure
  have h : times.getD i (0, 0) = times[i] := by simp [List.getD, hi]
  rw [h]
  exact hv _ (List.getElem_mem _)

theorem arrKey_lt_depKey {times : List (Int × Int)} (hv : Valid times) {i : Nat}
    (hi : i < times.length) : evLt (arrKey times i) (depKey times i) :=
  Or.inl (arrival_lt_departure hv hi)

theorem insertions_nodup {times : List (Int × Int)} (hv : Valid times) :
    (insertions times).Nodup := by
  unfold insertions
  rw [List.nodup_flatMap]
  refine ⟨?_, ?_⟩
  · intro i hi
    have := arrival_lt_departure hv (List.mem_range.mp hi)
    simp only [List.nodup_cons, List.mem_singleton, List.not_mem_nil, not_false_eq_true,
      List.nodup_nil, and_true, depKey, arrKey, Prod.mk.injEq]
    omega
  · refine (List.nodup_range _).pairwise_of_forall_ne ?_
    intro i _ j _ hij
    simp only [Function.onFun, List.disjoint_cons_left, List.mem_cons, List.mem_singleton,
      List.not_mem_nil, or_false, depKey, arrKey, Prod.mk.injEq]
    exact ⟨fun h => by rcases h with ⟨_, h⟩ | ⟨_, h⟩ <;> exact hij h,
      fun h => by rcases h with ⟨_, h⟩ | ⟨_, h⟩ <;> exact hij h, List.disjoint_nil_left _⟩

theorem start_queue_nodup {times : List (Int × Int)} (hv : Valid times) :
    (buildQueue (insertions times)).Nodup :=
  ((buildQueue_perm _).nodup_iff).mpr (insertions_nodup hv)

theorem mem_start_queue {times : List (Int × Int)} {e : Event} :
    e ∈ buildQueue (insertions times) ↔
      ∃ i, i < times.length ∧ (e = depKey times i ∨ e = arrKey times i) := by
  rw [(buildQueue_perm _).mem_iff]
  exact mem_insertions

/-- In an ordered duplicate-free list, what stands before an element is smaller. -/
theorem before_lt {pre rest : List Event} {e x : Event}
    (hs : (pre ++ e :: rest).Sorted evLe) (hn : (pre ++ e :: rest).Nodup) (hx : x ∈ pre) :
    evLt x e := by
  rw [evLt_iff_le_ne]
  refine ⟨?_, ?_⟩
  · exact (List.pairwise_append.mp hs).2.2 x hx e (List.mem_cons_self _ _)
  · rintro rfl
    exact (List.nodup_append.mp hn).2.2 hx (List.mem_cons_self _ _)

/-- In an ordered duplicate-free list, what stands after an element is greater. -/
theorem after_gt {pre rest : List Event} {e x : Event}
    (hs : (pre ++ e :: rest).Sorted evLe) (hn : (pre ++ e :: rest).Nodup) (hx : x ∈ rest) :
    evLt e x := by
  have hs2 := (List.pairwise_append.mp hs).2.1
  have hn2 := (List.nodup_append.mp hn).2.1
  rw [evLt_iff_le_ne]
  refine ⟨List.rel_of_sorted_cons hs2 x hx, ?_⟩
  rintro rfl
  exact (List.nodup_cons.mp hn2).1 hx

theorem mem_pre_iff {pre rest : List Event} {e x : Event}
    (hs : (pre ++ e :: rest).Sorted evLe) (hn : (pre ++ e :: rest).Nodup)
    (hx : x ∈ pre ++ e :: rest) : x ∈ pre ↔ evLt x e := by
  constructor
  · exact before_lt hs hn
  · intro hlt
    simp only [List.mem_append, List.mem_cons] at hx
    rcases hx with h | rfl | h
    · exact h
    · exact absurd hlt (evLt_irrefl _)
    · exact absurd (after_gt hs hn h) (fun h2 => evLt_asymm hlt h2)

theorem mem_rest_iff {pre rest : List Event} {e x : Event}
    (hs : (pre ++ e :: rest).Sorted evLe) (hn : (pre ++ e :: rest).Nodup)
    (hx : x ∈ pre ++ e :: rest) : x ∈ rest ↔ evLt e x := by
  constructor
  · exact after_gt hs hn
  · intro hlt
    simp only [List.mem_append, List.mem_cons] at hx
    rcases hx with h | rfl | h
    · exact absurd (before_lt hs hn h) (fun h2 => evLt_asymm hlt h2)
    · exact absurd hlt (evLt_irrefl _)
    · exact h

/-! ### The reference -/

theorem leastAbsentFrom_eq (held : List Nat) (c0 : Nat) (h1 : c0 ∉ held)
    (h2 : ∀ c, c < c0 → c ∈ held) :
    ∀ (fuel c : Nat), c ≤ c0 → c0 ≤ c + fuel → leastAbsentFrom held fuel c = c0 := by
  intro fuel
  induction fuel with
  | zero =>
    intro c hc hf
    simp only [leastAbsentFrom]
    omega
  | succ f ih =>
    intro c hc hf
    simp only [leastAbsentFrom]
    by_cases hm : c ∈ held
    · simp only [hm, if_true]
      have : c ≠ c0 := fun h => h1 (h ▸ hm)
      exact ih (c + 1) (by omega) (by omega)
    · simp only [hm, if_false]
      by_contra hne
      exact hm (h2 c (by omega))

/-- The value of `leastAbsent` is characterised by its name. -/
theorem leastAbsent_eq {held : List Nat} {c0 : Nat} (h1 : c0 ∉ held)
    (h2 : ∀ c, c < c0 → c ∈ held) : leastAbsent held = c0 := by
  have hlen : c0 ≤ held.length := by
    have hsub : List.range c0 ⊆ held := fun c hc => h2 c (List.mem_range.mp hc)
    have := (List.subperm_of_subset (List.nodup_range c0) hsub).length_le
    simpa using this
  exact leastAbsentFrom_eq held c0 h1 h2 held.length 0 (Nat.zero_le _) (by omega)

theorem leastAbsent_spec (held : List Nat) :
    leastAbsent held ∉ held ∧ ∀ c, c < leastAbsent held → c ∈ held := by
  have hex : ∃ c, c ∉ held := by
    obtain ⟨c, hc⟩ := Infinite.exists_not_mem_finset held.toFinset
    exact ⟨c, by simpa using hc⟩
  have h1 := Nat.find_spec hex
  have h2 : ∀ c, c < Nat.find hex → c ∈ held := fun c hc => by
    by_contra h
    exact Nat.find_min hex hc h
  rw [leastAbsent_eq h1 h2]
  exact ⟨h1, h2⟩

theorem countP_lt_of_witness {α : Type} (p q : α → Bool) (l : List α) (a : α)
    (hpq : ∀ x ∈ l, p x → q x) (ha : a ∈ l) (hq : q a) (hp : ¬ p a) :
    l.countP p < l.countP q := by
  induction l with
  | nil => simp at ha
  | cons x xs ih =>
    have hmono : xs.countP p ≤ xs.countP q :=
      List.countP_mono_left (fun y hy => hpq y (List.mem_cons_of_mem _ hy))
    rcases List.mem_cons.mp ha with rfl | hmem
    · rw [List.countP_cons_of_pos _ _ hq, List.countP_cons_of_neg _ _ hp]
      omega
    · have := ih (fun y hy => hpq y (List.mem_cons_of_mem _ hy)) hmem
      by_cases hx : p x
      · rw [List.countP_cons_of_pos _ _ hx, List.countP_cons_of_pos _ _ (hpq x (List.mem_cons_self _ _) hx)]
        omega
      · rw [List.countP_cons_of_neg _ _ hx]
        by_cases hqx : q x
        · rw [List.countP_cons_of_pos _ _ hqx]; omega
        · rw [List.countP_cons_of_neg _ _ hqx]; omega

theorem rank_lt_rank {times : List (Int × Int)} {j k : Nat} (hj : j < times.length)
    (h : evLt (arrKey times j) (arrKey times k)) : rank times j < rank times k := by
  unfold rank
  apply countP_lt_of_witness _ _ _ j
  · intro x _ hx
    simp only [decide_eq_true_eq] at hx ⊢
    exact evLt_trans hx h
  · exact List.mem_range.mpr hj
  · simpa using h
  · simpa using evLt_irrefl _

theorem rank_lt_length {times : List (Int × Int)} {k : Nat} (hk : k < times.length) :
    rank times k < times.length := by
  unfold rank
  have := countP_lt_of_witness (fun j => decide (evLt (arrKey times j) (arrKey times k)))
    (fun _ => true) (List.range times.length) k (fun _ _ _ => rfl) (List.mem_range.mpr hk) rfl
    (by simpa using evLt_irrefl _)
  simpa using this

theorem mem_blockers {times : List (Int × Int)} {j k : Nat} :
    j ∈ blockers times k ↔ j < times.length ∧ Blocks times j k := by
  simp [blockers]

/-- Enough fuel: the unfolding of `seatFuel` only descends to smaller ranks. -/
theorem seatFuel_irrel (times : List (Int × Int)) : ∀ (f f' k : Nat),
    rank times k < f → rank times k < f' → seatFuel times f k = seatFuel times f' k := by
  intro f
  induction f with
  | zero => intro f' k h; omega
  | succ f ih =>
    intro f' k h h'
    cases f' with
    | zero => omega
    | succ f' =>
      simp only [seatFuel]
      congr 1
      apply List.map_congr_left
      intro j hj
      obtain ⟨hjn, hb⟩ := mem_blockers.mp hj
      have := rank_lt_rank hjn hb.1
      exact ih f' j (by omega) (by omega)

/-- The defining equation of the reference: `seat k` is the least chair that
differs from `seat j` for every person `j` with
`(arrival_j, j) < (arrival_k, k) < (departure_j, j)`. -/
theorem seat_eq (times : List (Int × Int)) {k : Nat} (hk : k < times.length) :
    seat times k = leastAbsent ((blockers times k).map (seat times)) := by
  unfold seat
  obtain ⟨m, hm⟩ : ∃ m, times.length = m + 1 := ⟨times.length - 1, by omega⟩
  rw [hm]
  simp only [seatFuel]
  congr 1
  apply List.map_congr_left
  intro j hj
  obtain ⟨hjn, hb⟩ := mem_blockers.mp hj
  have h1 := rank_lt_rank hjn hb.1
  have h2 := rank_lt_length hk
  exact seatFuel_irrel times m (m + 1) j (by omega) (by omega)

/-! ### The invariant that holds on valid inputs -/

theorem RInv.atStart (times : List (Int × Int)) :
    RInv times
      ⟨buildQueue (insertions times), List.replicate times.length (-1), seedChairs times.length⟩ := by
  refine ⟨GInv.start times, [], rfl, ?_, ?_⟩
  · intro i hi
    simp [hi]
  · intro i v hi h hv
    simp only [List.getElem?_replicate, hi, if_true, Option.some.injEq] at h
    exact absurd h.symm hv

/-- The head of the queue is an event of the person it names. -/
theorem head_event {times : List (Int × Int)} {pre rest : List Event} {ev : Event}
    (hpre : buildQueue (insertions times) = pre ++ ev :: rest) :
    ev.2 < times.length ∧ (ev = depKey times ev.2 ∨ ev = arrKey times ev.2) := by
  have hmem : ev ∈ buildQueue (insertions times) := by
    rw [hpre]; simp
  obtain ⟨i, hi, h | h⟩ := mem_start_queue.mp hmem
  · have : ev.2 = i := by rw [h]; rfl
    rw [this]
    exact ⟨hi, Or.inl h⟩
  · have : ev.2 = i := by rw [h]; rfl
    rw [this]
    exact ⟨hi, Or.inr h⟩

/-- On a valid input the branch `chairMap[person] == -1` is taken exactly at
the arrival event of the person, the other branch exactly at the departure. -/
theorem RInv.branch {times : List (Int × Int)} (hv : Valid times) {ev : Event}
    {rest : List Event} {cm ch : List Int} (h : RInv times ⟨ev :: rest, cm, ch⟩) :
    ev.2 < times.length ∧
    (cm[ev.2]? = some (-1) → ev = arrKey times ev.2) ∧
    (cm[ev.2]? ≠ some (-1) → ev = depKey times ev.2) := by
  obtain ⟨hg, pre, hpre, hseated, -⟩ := h
  simp only at hpre hseated
  have hs := buildQueue_sorted (insertions times)
  have hn := start_queue_nodup hv
  rw [hpre] at hs hn
  obtain ⟨hp, hev⟩ := head_event hpre
  have hlt := arrKey_lt_depKey hv hp
  have hamem : arrKey times ev.2 ∈ pre ++ ev :: rest := by
    rw [← hpre]; exact mem_start_queue.mpr ⟨_, hp, Or.inr rfl⟩
  have hdmem : depKey times ev.2 ∈ pre ++ ev :: rest := by
    rw [← hpre]; exact mem_start_queue.mpr ⟨_, hp, Or.inl rfl⟩
  refine ⟨hp, ?_, ?_⟩
  · intro hcm
    rcases hev with hd | ha
    · exfalso
      have h1 : ¬ (arrKey times ev.2 ∈ pre ∧ depKey times ev.2 ∉ pre) := by
        intro h2
        exact (hseated _ hp).mpr h2 hcm
      have h2 : depKey times ev.2 ∉ pre := by
        intro h3
        have := before_lt hs hn h3
        rw [← hd] at this
        exact evLt_irrefl _ this
      have h3 : arrKey times ev.2 ∈ pre := by
        rw [mem_pre_iff hs hn hamem, hd]
        exact hlt
      exact h1 ⟨h3, h2⟩
    · exact ha
  · intro hcm
    rcases hev with hd | ha
    · exact hd
    · exfalso
      have h1 := ((hseated _ hp).mp hcm).1
      have := before_lt hs hn h1
      rw [← ha] at this
      exact evLt_irrefl _ this

theorem key_ne_of_person_ne {e e' : Event} (h : e.2 ≠ e'.2) : e ≠ e' := by
  rintro rfl
  exact h rfl

/-- The assigning branch keeps the invariant, and the chair taken is the one
of the reference. -/
theorem RInv.assignSeat {times : List (Int × Int)} (hv : Valid times) {ev : Event}
    {rest : List Event} {cm pool : List Int} {c : Int}
    (h : RInv times ⟨ev :: rest, cm, c :: pool⟩) (hcm : cm[ev.2]? = some (-1)) :
    RInv times ⟨rest, cm.set ev.2 c, pool⟩ ∧ c = (seat times ev.2 : Int) := by
  obtain ⟨hp, harr, -⟩ := h.branch hv
  have ha := harr hcm
  obtain ⟨hg, pre, hpre, hseated, hseat⟩ := h
  simp only at hpre hseated hseat
  have hs := buildQueue_sorted (insertions times)
  have hn := start_queue_nodup hv
  rw [hpre] at hs hn
  have hlt := arrKey_lt_depKey hv hp
  have hmemQ : ∀ i, i < times.length →
      arrKey times i ∈ pre ++ ev :: rest ∧ depKey times i ∈ pre ++ ev :: rest := by
    intro i hi
    rw [← hpre]
    exact ⟨mem_start_queue.mpr ⟨_, hi, Or.inr rfl⟩, mem_start_queue.mpr ⟨_, hi, Or.inl rfl⟩⟩
  obtain ⟨hmin, hc0, hcn, hfree, hbelow⟩ := hg.least
  have hlen : cm.length = times.length := hg.1
  -- the chair taken is the reference seat
  have hc : c = (seat times ev.2 : Int) := by
    have hkey : leastAbsent ((blockers times ev.2).map (seat times)) = c.toNat := by
      apply leastAbsent_eq
      · intro hmem
        obtain ⟨j, hj, hsj⟩ := List.mem_map.mp hmem
        obtain ⟨hjn, hb1, hb2⟩ := mem_blockers.mp hj
        rw [← ha] at hb1 hb2
        have h1 : arrKey times j ∈ pre := (mem_pre_iff hs hn (hmemQ j hjn).1).mpr hb1
        have h2 : depKey times j ∉ pre := fun h3 => evLt_asymm hb2 (before_lt hs hn h3)
        have h3 := (hseated j hjn).mpr ⟨h1, h2⟩
        obtain ⟨v, hv'⟩ : ∃ v, cm[j]? = some v := ⟨cm[j], by simp [hlen, hjn]⟩
        have hv1 : v ≠ -1 := by
          rintro rfl
          exact h3 hv'
        have := hseat j v hjn hv' hv1
        apply hfree j
        rw [hv', this, hsj]
        congr 1
        omega
      · intro c' hc'
        obtain ⟨j, hjn, hj⟩ := hbelow (c' : Int) (by omega) (by omega)
        have hj1 : cm[j]? ≠ some (-1) := by
          rw [hj]
          simp only [ne_eq, Option.some.injEq]
          omega
        obtain ⟨h1, h2⟩ := (hseated j hjn).mp hj1
        have hjp : j ≠ ev.2 := by
          rintro rfl
          exact hj1 hcm
        have hb1 : evLt (arrKey times j) ev := before_lt hs hn h1
        have hb2 : evLt ev (depKey times j) := by
          have := (hmemQ j hjn).2
          simp only [List.mem_append, List.mem_cons] at this
          rcases this with h3 | h3 | h3
          · exact absurd h3 h2
          · exact absurd h3 (key_ne_of_person_ne hjp)
          · exact after_gt hs hn h3
        rw [ha] at hb1 hb2
        refine List.mem_map.mpr ⟨j, mem_blockers.mpr ⟨hjn, hb1, hb2⟩, ?_⟩
        have := hseat j (c' : Int) hjn hj (by omega)
        omega
    rw [seat_eq times hp, hkey]
    omega
  refine ⟨⟨hg.assign hcm, pre ++ [ev], by simp [hpre], ?_, ?_⟩, hc⟩
  · intro i hi
    simp only
    by_cases hip : i = ev.2
    · subst hip
      have h1 : (cm.set ev.2 c)[ev.2]? = some c := by
        simp [List.getElem?_set, hlen, hp]
      rw [h1]
      constructor
      · intro _
        refine ⟨by rw [← ha]; simp, ?_⟩
        intro h2
        simp only [List.mem_append, List.mem_singleton] at h2
        rcases h2 with h2 | h2
        · have := before_lt hs hn h2
          rw [ha] at this
          exact evLt_asymm hlt this
        · have h3 : depKey times ev.2 = arrKey times ev.2 := h2.trans ha
          rw [h3] at hlt
          exact evLt_irrefl _ hlt
      · intro _
        simp only [ne_eq, Option.some.injEq]
        omega
    · have h1 : (cm.set ev.2 c)[i]? = cm[i]? := by
        rw [List.getElem?_set_ne (Ne.symm hip)]
      rw [h1, hseated i hi]
      have hne1 : arrKey times i ≠ ev := key_ne_of_person_ne hip
      have hne2 : depKey times i ≠ ev := key_ne_of_person_ne hip
      simp [hne1, hne2]
  · intro i v hi hiv hv1
    simp only at hiv
    by_cases hip : i = ev.2
    · subst hip
      have h1 : (cm.set ev.2 c)[ev.2]? = some c := by
        simp [List.getElem?_set, hlen, hp]
      rw [h1] at hiv
      cases hiv
      exact hc
    · rw [List.getElem?_set_ne (Ne.symm hip)] at hiv
      exact hseat i v hi hiv hv1

/-- The releasing branch keeps the invariant. -/
theorem RInv.releaseSeat {times : List (Int × Int)} (hv : Valid times) {ev : Event}
    {rest : List Event} {cm ch : List Int} {v : Int}
    (h : RInv times ⟨ev :: rest, cm, ch⟩) (hcm : cm[ev.2]? = some v) (hv1 : v ≠ -1) :
    RInv times ⟨rest, cm.set ev.2 (-1), pushChair v ch⟩ := by
  have hcm1 : cm[ev.2]? ≠ some (-1) := by
    rw [hcm]
    simp only [ne_eq, Option.some.injEq]
    exact hv1
  obtain ⟨hp, -, hdep⟩ := h.branch hv
  have hd := hdep hcm1
  obtain ⟨hg, pre, hpre, hseated, hseat⟩ := h
  simp only at hpre hseated hseat
  have hlen : cm.length = times.length := hg.1
  refine ⟨hg.release hcm hv1, pre ++ [ev], by simp [hpre], ?_, ?_⟩
  · intro i hi
    simp only
    by_cases hip : i = ev.2
    · subst hip
      have h1 : (cm.set ev.2 (-1))[ev.2]? = some (-1) := by
        simp [List.getElem?_set, hlen, hp]
      rw [h1]
      constructor
      · intro h2
        exact absurd rfl h2
      · rintro ⟨_, h2⟩
        exfalso
        apply h2
        rw [← hd]
        simp
    · have h1 : (cm.set ev.2 (-1))[i]? = cm[i]? := by
        rw [List.getElem?_set_ne (Ne.symm hip)]
      rw [h1, hseated i hi]
      have hne1 : arrKey times i ≠ ev := key_ne_of_person_ne hip
      have hne2 : depKey times i ≠ ev := key_ne_of_person_ne hip
      simp [hne1, hne2]
  · intro i w hi hiw hw1
    simp only at hiw
    by_cases hip : i = ev.2
    · subst hip
      have h1 : (cm.set ev.2 (-1))[ev.2]? = some (-1) := by
        simp [List.getElem?_set, hlen, hp]
      rw [h1] at hiw
      cases hiw
      exact absurd rfl hw1
    · rw [List.getElem?_set_ne (Ne.symm hip)] at hiw
      exact hseat i w hi hiw hw1

theorem RInv.nextStep {times : List (Int × Int)} (hv : Valid times) (t : Int) {ev : Event}
    {rest : List Event} {cm ch cm' ch' : List Int} (h : RInv times ⟨ev :: rest, cm, ch⟩)
    (hb : loopBody t ev cm ch = .next cm' ch') : RInv times ⟨rest, cm', ch'⟩ := by
  rcases h.1.cases t with ⟨hp, c, pool, rfl, he⟩ | ⟨v, hp, hv1, he⟩
  · rw [he] at hb
    split at hb
    · cases hb
    · cases hb
      exact (h.assignSeat hv hp).1
  · rw [he] at hb
    cases hb
    exact h.releaseSeat hv hp hv1

theorem RInv.retStep {times : List (Int × Int)} (hv : Valid times) (t : Int) {ev : Event}
    {rest : List Event} {cm ch cm' ch' : List Int} {r : Int}
    (h : RInv times ⟨ev :: rest, cm, ch⟩)
    (hb : loopBody t ev cm ch = .ret r cm' ch') :
    RInv times ⟨rest, cm', ch'⟩ ∧ (ev.2 : Int) = t ∧ r = (seat times ev.2 : Int) := by
  obtain ⟨-, ht, hcm, rfl, rfl⟩ := h.1.ret t hb
  obtain ⟨h1, h2⟩ := h.assignSeat hv hcm
  exact ⟨h1, ht, h2⟩

theorem runTrace_RInv {times : List (Int × Int)} (hv : Valid times) (t : Int) :
    ∀ cfg ∈ runTrace times t, RInv times cfg := by
  refine trace_forall t (RInv times) ?_ ?_ _ _ _ (RInv.atStart times)
  · intro ev rest cm ch cm' ch' h hb
    exact h.nextStep hv t hb
  · intro ev rest cm ch v cm' ch' h hb
    exact (h.retStep hv t hb).1

/-- On a valid input a call for person `k` returns at the arrival of `k`, with
the chair of the reference, which is one of the `N` chairs. -/
theorem smallestChair_returns_seat {times : List (Int × Int)} (hv : Valid times) {k : Nat}
    (hk : k < times.length) :
    smallestChair times (k : Int) = .returned (seat times k) ∧ seat times k < times.length := by
  unfold smallestChair simulate
  refine loop_rule (k : Int)
    (fun cfg => RInv times cfg ∧ arrKey times k ∈ cfg.orderQueue)
    (fun o => o = .returned (seat times k) ∧ seat times k < times.length)
    ?_ ?_ ?_ ?_ _ _ _ ⟨RInv.atStart times, mem_start_queue.mpr ⟨k, hk, Or.inr rfl⟩⟩
  · intro ev rest cm ch cm' ch' h hb
    obtain ⟨hr, hmem⟩ := h
    refine ⟨hr.nextStep hv _ hb, ?_⟩
    simp only [List.mem_cons] at hmem
    rcases hmem with heq | hmem
    · exfalso
      have hev : ev.2 = k := by rw [← heq]; rfl
      obtain ⟨hg, pre, hpre, hseated, -⟩ := hr
      simp only at hpre hseated
      have hn := start_queue_nodup hv
      rw [hpre] at hn
      have hcm : cm[ev.2]? = some (-1) := by
        have hidx : ev.2 < cm.length := by rw [hg.1, hev]; exact hk
        obtain ⟨v, hv'⟩ : ∃ v, cm[ev.2]? = some v := ⟨cm[ev.2], by simp [hidx]⟩
        by_cases hv1 : v = -1
        · rw [hv', hv1]
        · exfalso
          have h1 : cm[ev.2]? ≠ some (-1) := by
            rw [hv']
            simpa using hv1
          have h2 := ((hseated ev.2 (by rw [hev]; exact hk)).mp h1).1
          rw [hev, heq] at h2
          exact (List.nodup_append.mp hn).2.2 h2 (List.mem_cons_self _ _)
      rcases hg.cases (k : Int) with ⟨_, c, pool, rfl, he⟩ | ⟨v, hp, hv1, _⟩
      · rw [he, hev] at hb
        simp at hb
      · rw [hcm] at hp
        cases hp
        exact hv1 rfl
    · exact hmem
  · intro ev rest cm ch r cm' ch' h hb
    obtain ⟨hr, -⟩ := h
    obtain ⟨-, ht, hseat⟩ := hr.retStep hv _ hb
    have hev : ev.2 = k := by exact_mod_cast ht
    obtain ⟨-, -, -, hch, -⟩ := hr.1.ret _ hb
    have hg := hr.1
    rw [hch] at hg
    obtain ⟨-, -, hlt, -, -⟩ := hg.least
    rw [hev] at hseat
    rw [hseat] at hlt
    exact ⟨by rw [hseat], by exact_mod_cast hlt⟩
  · intro ev rest cm ch f h hb
    exact absurd hb (h.1.1.not_undefined _)
  · intro cm ch h
    simp at h

/-! ### The reference when nobody has left -/

theorem evLt_or_gt_of_person_ne {a b : Event} (h : a.2 ≠ b.2) : evLt a b ∨ evLt b a := by
  unfold evLt
  omega

theorem evLe_of_not_evLt {a b : Event} (h : ¬ evLt a b) : evLe b a := by
  unfold evLt at h
  unfold evLe
  omega

/-- A duplicate-free list of `n` numbers below `n` contains every number below `n`. -/
theorem mem_of_nodup_of_lt_length (l : List Nat) (hn : l.Nodup) (hl : ∀ x ∈ l, x < l.length)
    {c : Nat} (hc : c < l.length) : c ∈ l := by
  have hsub : l ⊆ List.range l.length := fun x hx => List.mem_range.mpr (hl x hx)
  have hperm := (List.subperm_of_subset hn hsub).perm_of_length_le (by simp)
  exact hperm.symm.subset (List.mem_range.mpr hc)

/-- Every position below `rank k` of the arrival order is taken by a person
that arrives before `k`. -/
theorem rank_surj (times : List (Int × Int)) (k : Nat) {c : Nat} (hc : c < rank times k) :
    ∃ j, j < times.length ∧ evLt (arrKey times j) (arrKey times k) ∧ rank times j = c := by
  let B := (List.range times.length).filter
    (fun j => decide (evLt (arrKey times j) (arrKey times k)))
  have hB : ∀ j, j ∈ B ↔ j < times.length ∧ evLt (arrKey times j) (arrKey times k) := by
    intro j
    simp [B]
  have hlenB : B.length = rank times k := by
    simp only [B, rank, List.countP_eq_length_filter]
  have hnd : (B.map (rank times)).Nodup := by
    refine List.Nodup.map_on ?_ ((List.nodup_range _).filter _)
    intro x hx y hy hxy
    by_contra hne
    have hx1 := ((hB x).mp hx).1
    have hy1 := ((hB y).mp hy).1
    rcases evLt_or_gt_of_person_ne (a := arrKey times x) (b := arrKey times y) hne with h | h
    · have := rank_lt_rank hx1 h
      omega
    · have := rank_lt_rank hy1 h
      omega
  have hlt : ∀ x ∈ B.map (rank times), x < (B.map (rank times)).length := by
    intro x hx
    obtain ⟨j, hj, rfl⟩ := List.mem_map.mp hx
    obtain ⟨hj1, hj2⟩ := (hB j).mp hj
    rw [List.length_map, hlenB]
    exact rank_lt_rank hj1 hj2
  have hmem := mem_of_nodup_of_lt_length _ hnd hlt (c := c) (by rw [List.length_map, hlenB]; exact hc)
  obtain ⟨j, hj, hjc⟩ := List.mem_map.mp hmem
  obtain ⟨hj1, hj2⟩ := (hB j).mp hj
  exact ⟨j, hj1, hj2, hjc⟩

/-- If no departure event precedes the arrival of `t`, everybody who arrives
up to then has as reference seat their position in the arrival order. -/
theorem seat_eq_rank {times : List (Int × Int)} {t : Nat}
    (hnodep : ∀ j, j < times.length → ¬ evLt (depKey times j) (arrKey times t)) :
    ∀ (r k : Nat), rank times k = r → k < times.length →
      evLe (arrKey times k) (arrKey times t) → seat times k = rank times k := by
  intro r
  induction r using Nat.strong_induction_on with
  | _ r ih =>
    intro k hr hk hkt
    rw [seat_eq times hk]
    apply leastAbsent_eq
    · intro hmem
      obtain ⟨j, hj, hsj⟩ := List.mem_map.mp hmem
      obtain ⟨hjn, hb1, -⟩ := mem_blockers.mp hj
      have hlt := rank_lt_rank hjn hb1
      have hjt : evLe (arrKey times j) (arrKey times t) :=
        evLe_trans (evLt_iff_le_ne.mp hb1).1 hkt
      have := ih (rank times j) (by omega) j rfl hjn hjt
      omega
    · intro c hc
      obtain ⟨j, hjn, hj1, hjc⟩ := rank_surj times k hc
      have hjt : evLe (arrKey times j) (arrKey times t) :=
        evLe_trans (evLt_iff_le_ne.mp hj1).1 hkt
      have hsj := ih (rank times j) (by omega) j rfl hjn hjt
      refine List.mem_map.mpr ⟨j, mem_blockers.mpr ⟨hjn, hj1, ?_⟩, by omega⟩
      rw [evLt_iff_le_ne]
      refine ⟨evLe_trans hkt (evLe_of_not_evLt (hnodep j hjn)), ?_⟩
      intro heq
      have hkj : k = j := congrArg Prod.snd heq
      subst hkj
      exact evLt_irrefl _ hj1

/-- A duplicate-free list has one suffix per head. -/
theorem suffix_unique {pre pre' rest rest' : List Event} {e : Event}
    (hn : (pre ++ e :: rest).Nodup) (h : pre ++ e :: rest = pre' ++ e :: rest') :
    rest = rest' := by
  have hn' : (pre' ++ e :: rest').Nodup := h ▸ hn
  rcases List.append_eq_append_iff.mp h with ⟨a, h1, h2⟩ | ⟨a, h1, h2⟩
  · cases a with
    | nil =>
      simp only [List.nil_append, List.cons.injEq, true_and] at h2
      exact h2
    | cons x a =>
      simp only [List.cons_append, List.cons.injEq] at h2
      exfalso
      have hmem : e ∈ pre' := by rw [h1, ← h2.1]; simp
      exact (List.nodup_append.mp hn').2.2 hmem (List.mem_cons_self _ _)
  · cases a with
    | nil =>
      simp only [List.nil_append, List.cons.injEq, true_and] at h2
      exact h2.symm
    | cons x a =>
      simp only [List.cons_append, List.cons.injEq] at h2
      exfalso
      have hmem : e ∈ pre := by rw [h1, ← h2.1]; simp
      exact (List.nodup_append.mp hn).2.2 hmem (List.mem_cons_self _ _)

/-- The seated persons in terms of the queue: the arrival has left the queue,
the departure has not. -/
theorem RInv.seated_iff {times : List (Int × Int)} (hv : Valid times) {c : Config}
    (h : RInv times c) {i : Nat} (hi : i < times.length) :
    ∃ v, c.chairMap[i]? = some v ∧
      (v ≠ -1 ↔ arrKey times i ∉ c.orderQueue ∧ depKey times i ∈ c.orderQueue) := by
  obtain ⟨hg, pre, hpre, hseated, -⟩ := h
  have hidx : i < c.chairMap.length := by rw [hg.1]; exact hi
  refine ⟨c.chairMap[i], by simp [hidx], ?_⟩
  have hn := start_queue_nodup hv
  rw [hpre] at hn
  have hdisj := (List.nodup_append.mp hn).2.2
  have ha : arrKey times i ∈ pre ++ c.orderQueue := by
    rw [← hpre]; exact mem_start_queue.mpr ⟨_, hi, Or.inr rfl⟩
  have hd : depKey times i ∈ pre ++ c.orderQueue := by
    rw [← hpre]; exact mem_start_queue.mpr ⟨_, hi, Or.inl rfl⟩
  have h1 : c.chairMap[i] ≠ -1 ↔ c.chairMap[i]? ≠ some (-1) := by
    simp [hidx]
  rw [h1, hseated i hi]
  simp only [List.mem_append] at ha hd
  constructor
  · rintro ⟨h2, h3⟩
    exact ⟨fun h4 => hdisj h2 h4, hd.resolve_left h3⟩
  · rintro ⟨h2, h3⟩
    exact ⟨ha.resolve_right h2, fun h4 => hdisj h4 h3⟩

/-! ### The claims -/

/-- C1. On every valid input (rows with `arrival < departure`) and for every
target `t` in `[0, N)`, `smallestChair` returns `seat t`, where `seat` is the
event-free reference: `seat k` is the least natural number that is not `seat j`
for any person `j` with `(arrival_j, j) < (arrival_k, k) < (departure_j, j)`
(second conjunct: no such `j` has the seat of `k`, and every smaller number is
the seat of such a `j`). -/
theorem smallestChair_eq_seat (times : List (Int × Int)) (hv : Valid times) (t : Int)
    (h0 : 0 ≤ t) (h1 : t < times.length) :
    smallestChair times t = .returned (seat times t.toNat) ∧
    ∀ k, k < times.length →
      (∀ j, j < times.length → Blocks times j k → seat times j ≠ seat times k) ∧
      (∀ c, c < seat times k → ∃ j, j < times.length ∧ Blocks times j k ∧ seat times j = c) := by
  refine ⟨?_, ?_⟩
  · have hk : t.toNat < times.length := by omega
    have := (smallestChair_returns_seat hv hk).1
    rwa [Int.toNat_of_nonneg h0] at this
  · intro k hk
    have hspec := leastAbsent_spec ((blockers times k).map (seat times))
    rw [← seat_eq times hk] at hspec
    refine ⟨?_, ?_⟩
    · intro j hj hb heq
      exact hspec.1 (List.mem_map.mpr ⟨j, mem_blockers.mpr ⟨hj, hb⟩, heq⟩)
    · intro c hc
      obtain ⟨j, hj, hjc⟩ := List.mem_map.mp (hspec.2 c hc)
      obtain ⟨hjn, hb⟩ := mem_blockers.mp hj
      exact ⟨j, hjn, hb, hjc⟩

theorem smallestChair_eq_seat_witness :
    Valid [(1, 4), (2, 3), (4, 6)] ∧
    smallestChair [(1, 4), (2, 3), (4, 6)] 1 =
      .returned (seat [(1, 4), (2, 3), (4, 6)] (Int.toNat 1)) :=
  ⟨by decide,
    (smallestChair_eq_seat [(1, 4), (2, 3), (4, 6)] (by decide) 1 (by decide) (by decide)).1⟩

/-- C2. On every valid input and for every target in `[0, N)`, `smallestChair`
returns a value `r` with `0 ≤ r < N`; in particular it does not return `-1`. -/
theorem smallestChair_in_range (times : List (Int × Int)) (hv : Valid times) (t : Int)
    (h0 : 0 ≤ t) (h1 : t < times.length) :
    (∃ r, smallestChair times t = .returned r ∧ 0 ≤ r ∧ r < times.length) ∧
    smallestChair times t ≠ .returned (-1) := by
  have hk : t.toNat < times.length := by omega
  obtain ⟨h2, h3⟩ := smallestChair_returns_seat hv hk
  rw [Int.toNat_of_nonneg h0] at h2
  refine ⟨⟨_, h2, by omega, by omega⟩, ?_⟩
  rw [h2]
  intro h
  simp only [Outcome.returned.injEq] at h
  omega

theorem smallestChair_in_range_witness :
    Valid [(3, 10), (1, 5), (2, 6)] ∧
    (∃ r, smallestChair [(3, 10), (1, 5), (2, 6)] 0 = .returned r ∧ 0 ≤ r ∧
      r < ([(3, 10), (1, 5), (2, 6)] : List (Int × Int)).length) :=
  ⟨by decide,
    (smallestChair_in_range [(3, 10), (1, 5), (2, 6)] (by decide) 0 (by decide) (by decide)).1⟩

/-- C3. On every input (valid intervals or not) and for every target outside
`[0, N)`, the loop processes all `2N` events (the run ends at a loop head with
an empty queue) and `smallestChair` returns `-1`. -/
theorem smallestChair_target_out_of_range (times : List (Int × Int)) (t : Int)
    (ht : t < 0 ∨ (times.length : Int) ≤ t) :
    smallestChair times t = .returned (-1) ∧
    eventsProcessed times t = 2 * times.length ∧
    ∃ cm ch, (runTrace times t).getLast? = some ⟨[], cm, ch⟩ := by
  have h := loop_no_target times.length t ht _ _ _ (GInv.start times)
  rw [start_queue_length] at h
  refine ⟨h.1, ?_, h.2.2⟩
  have h2 : (runTrace times t).length = 2 * times.length + 1 := h.2.1
  unfold eventsProcessed
  omega

theorem smallestChair_target_out_of_range_witness :
    ((5 : Int) < 0 ∨ ((([(3, 1), (5, 5), (2, -6)] : List (Int × Int)).length : Nat) : Int) ≤ 5) ∧
    smallestChair [(3, 1), (5, 5), (2, -6)] 5 = .returned (-1) ∧
    eventsProcessed [(3, 1), (5, 5), (2, -6)] 5 = 2 * 3 :=
  ⟨by decide, (smallestChair_target_out_of_range [(3, 1), (5, 5), (2, -6)] 5 (by decide)).1,
    (smallestChair_target_out_of_range [(3, 1), (5, 5), (2, -6)] 5 (by decide)).2.1⟩

/-- C4. On every valid input and for every target `t` in `[0, N)` such that no
departure event precedes the arrival event of `t` in `(timestamp, person)`
order, `smallestChair` returns the number of persons whose arrival key is
smaller than `(arrival_t, t)`. -/
theorem smallestChair_eq_rank (times : List (Int × Int)) (hv : Valid times) (t : Int)
    (h0 : 0 ≤ t) (h1 : t < times.length)
    (hnodep : ∀ j, j < times.length → ¬ evLt (depKey times j) (arrKey times t.toNat)) :
    smallestChair times t = .returned (rank times t.toNat) := by
  have hk : t.toNat < times.length := by omega
  have h2 := (smallestChair_returns_seat hv hk).1
  rw [Int.toNat_of_nonneg h0] at h2
  rw [h2, seat_eq_rank hnodep _ _ rfl hk (evLe_refl _)]

/-- The three scenarios of the specification. -/
theorem smallestChair_eq_rank_witness :
    Valid [(1, 4), (2, 3), (4, 6)] ∧
    (∀ j, j < 3 → ¬ evLt (depKey [(1, 4), (2, 3), (4, 6)] j) (arrKey [(1, 4), (2, 3), (4, 6)] 1)) ∧
    smallestChair [(1, 4), (2, 3), (4, 6)] 1 = .returned 1 ∧
    smallestChair [(3, 10), (1, 5), (2, 6)] 0 = .returned 2 ∧
    smallestChair [(0, 5)] 0 = .returned 0 :=
  ⟨by decide, by decide,
   (smallestChair_eq_rank [(1, 4), (2, 3), (4, 6)] (by decide) 1 (by decide) (by decide)
      (by decide)).trans (by decide),
   (smallestChair_eq_rank [(3, 10), (1, 5), (2, 6)] (by decide) 0 (by decide) (by decide)
      (by decide)).trans (by decide),
   (smallestChair_eq_rank [(0, 5)] (by decide) 0 (by decide) (by decide)
      (by decide)).trans (by decide)⟩

/-- C5. On every input (reversed intervals, negative and duplicate times
included) and for every target, the run never takes `top`/`pop` of an empty
pool and never indexes `chairMap` outside `[0, N)`: the outcome is not
undefined, at every loop head the popped person is a valid index and the pool
is not empty when a chair is taken; and the loop runs at most `2N` times. -/
theorem smallestChair_no_undefined (times : List (Int × Int)) (t : Int) :
    (∀ f, smallestChair times t ≠ .undefined f) ∧
    (∀ cfg ∈ runTrace times t, ∀ ev rest, cfg.orderQueue = ev :: rest →
      cfg.chairMap.length = times.length ∧ ev.2 < cfg.chairMap.length ∧
      (cfg.chairMap[ev.2]? = some (-1) → cfg.chair ≠ []) ∧
      ∀ f, loopBody t ev cfg.chairMap cfg.chair ≠ .undefined f) ∧
    eventsProcessed times t ≤ 2 * times.length := by
  refine ⟨loop_defined times.length t _ _ _ (GInv.start times), ?_, ?_⟩
  · intro cfg hcfg ev rest hq
    have hg := runTrace_GInv times t cfg hcfg
    have hev : ev.2 < times.length := hg.2.1 ev (by rw [hq]; simp)
    refine ⟨hg.1, by rw [hg.1]; exact hev, fun h => hg.pool_ne_nil h, ?_⟩
    intro f
    have hg' : GInv times.length ⟨ev :: rest, cfg.chairMap, cfg.chair⟩ := by
      rw [← hq]; exact hg
    exact hg'.not_undefined t
  · have := trace_length_le t (buildQueue (insertions times))
      (List.replicate times.length (-1)) (seedChairs times.length)
    rw [start_queue_length] at this
    unfold eventsProcessed
    exact Nat.sub_le_of_le_add this

/-- C6. The result is determined by `(times, targetFriend)`: inserting the
`2N` events into the queue in any other order gives the same queue content,
hence the same run and the same result; two events that the queue order does
not separate are equal. -/
theorem smallestChair_insertion_order (times : List (Int × Int)) (t : Int) (es : List Event)
    (h : es.Perm (insertions times)) :
    simulate times.length es t = smallestChair times t ∧
    simulateTrace times.length es t = runTrace times t ∧
    buildQueue es = buildQueue (insertions times) ∧
    ∀ a b : Event, evLe a b → evLe b a → a = b := by
  have hq := buildQueue_congr h
  refine ⟨?_, ?_, hq, fun a b => evLe_antisymm⟩
  · unfold smallestChair simulate
    rw [hq]
  · unfold runTrace simulateTrace
    rw [hq]

theorem smallestChair_insertion_order_witness :
    List.Perm [((4 : Int), 1), (6, 0), (1, 1), (4, 0)] (insertions [(4, 6), (1, 4)]) ∧
    simulate 2 [(4, 1), (6, 0), (1, 1), (4, 0)] 0 = smallestChair [(4, 6), (1, 4)] 0 :=
  ⟨by decide,
    (smallestChair_insertion_order [(4, 6), (1, 4)] 0 [(4, 1), (6, 0), (1, 1), (4, 0)]
      (by decide)).1⟩

/-- C7, as stated, fails: with one person and target `1`, outside `[0, 1)`,
the call returns the ordinary value `-1`; there is no validation. -/
theorem smallestChair_validation_counterexample :
    ¬ ((0 : Int) ≤ 1 ∧ (1 : Int) < (([(0, 5)] : List (Int × Int)).length : Nat)) ∧
    smallestChair [(0, 5)] 1 = .returned (-1) := by
  decide

/-- C7, amended. When the target is outside `[0, N)`, `smallestChair` performs
no validation: the call returns the value `-1`. -/
theorem smallestChair_out_of_range_returns (times : List (Int × Int)) (t : Int)
    (ht : ¬ (0 ≤ t ∧ t < (times.length : Int))) :
    smallestChair times t = .returned (-1) :=
  (loop_no_target times.length t (by omega) _ _ _ (GInv.start times)).1

theorem smallestChair_out_of_range_returns_witness :
    ¬ ((0 : Int) ≤ -2 ∧ (-2 : Int) < (([(1, 4), (2, 3)] : List (Int × Int)).length : Nat)) ∧
    smallestChair [(1, 4), (2, 3)] (-2) = .returned (-1) :=
  ⟨by decide, smallestChair_out_of_range_returns [(1, 4), (2, 3)] (-2) (by decide)⟩

/-- C8. At every point of the run on any input, the free pool together with
the chairs stored in the entries of `chairMap` other than `-1` is a
rearrangement of `0 .. N-1` without repetition: pool size plus the number of
assigned persons is `N`, at most `N` chairs are in use, and two distinct
persons never hold the same chair. -/
theorem chairs_partition (times : List (Int × Int)) (t : Int) (cfg : Config)
    (h : cfg ∈ runTrace times t) :
    (cfg.chair ++ assigned cfg.chairMap).Perm (allChairs times.length) ∧
    (cfg.chair ++ assigned cfg.chairMap).Nodup ∧
    cfg.chair.length + (assigned cfg.chairMap).length = times.length ∧
    (assigned cfg.chairMap).length ≤ times.length ∧
    ∀ (i j : Nat) (c : Int), cfg.chairMap[i]? = some c → cfg.chairMap[j]? = some c →
      c ≠ -1 → i = j := by
  have hg := runTrace_GInv times t cfg h
  have hlen : cfg.chair.length + (assigned cfg.chairMap).length = times.length := by
    have := hg.2.2.2.length_eq
    rwa [allChairs_length, List.length_append] at this
  refine ⟨hg.2.2.2, hg.nodup, hlen, by omega, ?_⟩
  intro i j c hi hj hc
  exact assigned_nodup_inj (List.nodup_append.mp hg.nodup).2.1 hi hj hc

theorem chairs_partition_witness :
    (⟨[(4, 1), (6, 0)], [1, 0], []⟩ : Config) ∈ runTrace [(4, 6), (1, 4)] 0 ∧
    (([] : List Int) ++ assigned [1, 0]).Perm (allChairs 2) :=
  ⟨by decide, (chairs_partition [(4, 6), (1, 4)] 0 ⟨[(4, 1), (6, 0)], [1, 0], []⟩ (by decide)).1⟩

/-- C9. On every valid input, at every point of the run and for every person
`i`, `chairMap[i]` differs from `-1` exactly when the arrival event of `i` has
been processed (has left the queue) and the departure event has not; so the
branch `chairMap[person] == -1` is taken exactly at the arrival of the person,
the other branch exactly at the departure, and a person is assigned a chair at
one point of the run at most. -/
theorem seated_between_arrival_and_departure (times : List (Int × Int)) (hv : Valid times)
    (t : Int) (cfg : Config) (h : cfg ∈ runTrace times t) :
    (∀ i, i < times.length → ∃ v, cfg.chairMap[i]? = some v ∧
      (v ≠ -1 ↔ arrKey times i ∉ cfg.orderQueue ∧ depKey times i ∈ cfg.orderQueue)) ∧
    (∀ ev rest, cfg.orderQueue = ev :: rest →
      (cfg.chairMap[ev.2]? = some (-1) ↔ ev = arrKey times ev.2) ∧
      (cfg.chairMap[ev.2]? ≠ some (-1) ↔ ev = depKey times ev.2)) ∧
    (∀ cfg' ∈ runTrace times t, ∀ ev rest ev' rest',
      cfg.orderQueue = ev :: rest → cfg'.orderQueue = ev' :: rest' → ev.2 = ev'.2 →
      cfg.chairMap[ev.2]? = some (-1) → cfg'.chairMap[ev'.2]? = some (-1) →
      cfg.orderQueue = cfg'.orderQueue) := by
  have hr := runTrace_RInv hv t cfg h
  refine ⟨fun i hi => hr.seated_iff hv hi, ?_, ?_⟩
  · intro ev rest hq
    have hr' : RInv times ⟨ev :: rest, cfg.chairMap, cfg.chair⟩ := by
      rw [← hq]; exact hr
    obtain ⟨hp, h1, h2⟩ := hr'.branch hv
    have hlt := arrKey_lt_depKey hv hp
    have hne : arrKey times ev.2 ≠ depKey times ev.2 := (evLt_iff_le_ne.mp hlt).2
    refine ⟨⟨h1, ?_⟩, ⟨h2, ?_⟩⟩
    · intro ha
      by_contra hcm
      exact hne (ha.symm.trans (h2 hcm))
    · intro hd hcm
      exact hne ((h1 hcm).symm.trans hd)
  · intro cfg' hcfg' ev rest ev' rest' hq hq' hpers hcm hcm'
    have hr1 : RInv times ⟨ev :: rest, cfg.chairMap, cfg.chair⟩ := by
      rw [← hq]; exact hr
    have hr2 : RInv times ⟨ev' :: rest', cfg'.chairMap, cfg'.chair⟩ := by
      rw [← hq']; exact runTrace_RInv hv t cfg' hcfg'
    have he : ev = arrKey times ev.2 := (hr1.branch hv).2.1 hcm
    have he' : ev' = arrKey times ev'.2 := (hr2.branch hv).2.1 hcm'
    have heq : ev' = ev := by rw [he', ← hpers, ← he]
    subst heq
    obtain ⟨-, pre, hpre, -⟩ := hr1
    obtain ⟨-, pre', hpre', -⟩ := hr2
    simp only at hpre hpre'
    have hn := start_queue_nodup hv
    rw [hpre] at hn
    rw [hq, hq', suffix_unique hn (hpre.symm.trans hpre')]

theorem seated_between_arrival_and_departure_witness :
    Valid [(1, 4), (2, 3), (4, 6)] ∧
    (⟨[(3, 1), (4, 0), (4, 2), (6, 2)], [0, 1, -1], [2]⟩ : Config) ∈
      runTrace [(1, 4), (2, 3), (4, 6)] 2 ∧
    (∀ i, i < 3 → ∃ v, ([0, 1, -1] : List Int)[i]? = some v ∧
      (v ≠ -1 ↔ arrKey [(1, 4), (2, 3), (4, 6)] i ∉ [((3 : Int), 1), (4, 0), (4, 2), (6, 2)] ∧
        depKey [(1, 4), (2, 3), (4, 6)] i ∈ [((3 : Int), 1), (4, 0), (4, 2), (6, 2)])) :=
  ⟨by decide, by decide,
    (seated_between_arrival_and_departure [(1, 4), (2, 3), (4, 6)] (by decide) 2
      ⟨[(3, 1), (4, 0), (4, 2), (6, 2)], [0, 1, -1], [2]⟩ (by decide)).1⟩

/-- C10. Whenever the run (on any input, valid ones included) assigns a chair
`c` to a person, which for the target is the value returned, `c` is the
minimum of the free pool at that moment: every other free chair is greater, no
person holds `c`, and every chair `c'` with `0 ≤ c' < c` is held by a person. -/
theorem assigned_chair_least (times : List (Int × Int)) (t : Int) (cfg : Config)
    (h : cfg ∈ runTrace times t) (ev : Event) (rest : List Event)
    (hq : cfg.orderQueue = ev :: rest) (hcm : cfg.chairMap[ev.2]? = some (-1)) :
    ∃ c pool, cfg.chair = c :: pool ∧
      loopBody t ev cfg.chairMap cfg.chair =
        (if (ev.2 : Int) = t then .ret c (cfg.chairMap.set ev.2 c) pool
         else .next (cfg.chairMap.set ev.2 c) pool) ∧
      (∀ x ∈ pool, c < x) ∧ 0 ≤ c ∧ c < times.length ∧
      (∀ j : Nat, cfg.chairMap[j]? ≠ some c) ∧
      (∀ c', 0 ≤ c' → c' < c → ∃ j : Nat, j < times.length ∧ cfg.chairMap[j]? = some c') := by
  have hg := runTrace_GInv times t cfg h
  have hg' : GInv times.length ⟨ev :: rest, cfg.chairMap, cfg.chair⟩ := by
    rw [← hq]; exact hg
  rcases hg'.cases t with ⟨_, c, pool, hch, he⟩ | ⟨v, hp, hv1, _⟩
  · rw [hch] at hg'
    exact ⟨c, pool, hch, he, hg'.least⟩
  · rw [hcm] at hp
    cases hp
    exact absurd rfl hv1

theorem assigned_chair_least_witness :
    (⟨[(4, 0), (4, 1), (6, 0)], [-1, 0], [1]⟩ : Config) ∈ runTrace [(4, 6), (1, 4)] 0 ∧
    ([-1, 0] : List Int)[0]? = some (-1) ∧
    ∃ c pool, ([1] : List Int) = c :: pool ∧
      loopBody 0 (4, 0) [-1, 0] [1] =
        (if (((4, 0) : Event).2 : Int) = 0 then .ret c (([-1, 0] : List Int).set 0 c) pool
         else .next (([-1, 0] : List Int).set 0 c) pool) ∧
      (∀ x ∈ pool, c < x) ∧ 0 ≤ c ∧ c < (([(4, 6), (1, 4)] : List (Int × Int)).length : Nat) ∧
      (∀ j : Nat, ([-1, 0] : List Int)[j]? ≠ some c) ∧
      (∀ c', 0 ≤ c' → c' < c → ∃ j : Nat, j < ([(4, 6), (1, 4)] : List (Int × Int)).length ∧
        ([-1, 0] : List Int)[j]? = some c') :=
  ⟨by decide, by decide,
    assigned_chair_least [(4, 6), (1, 4)] 0 ⟨[(4, 0), (4, 1), (6, 0)], [-1, 0], [1]⟩ (by decide)
      (4, 0) [(4, 1), (6, 0)] rfl (by decide)⟩

/-! ### The processing order -/

/-- On a valid input, at every point of the run the processed events are a
prefix of the initial queue and precede every pending event. -/
theorem RInv.processed_lt {times : List (Int × Int)} (hv : Valid times) {c : Config}
    (h : RInv times c) :
    ∃ pre, buildQueue (insertions times) = pre ++ c.orderQueue ∧
      ∀ x ∈ pre, ∀ y ∈ c.orderQueue, evLt x y := by
  obtain ⟨-, pre, hpre, -⟩ := h
  refine ⟨pre, hpre, ?_⟩
  have hs := buildQueue_sorted (insertions times)
  have hn := start_queue_nodup hv
  rw [hpre] at hs hn
  intro x hx y hy
  rw [evLt_iff_le_ne]
  refine ⟨(List.pairwise_append.mp hs).2.2 x hx y hy, ?_⟩
  rintro rfl
  exact (List.nodup_append.mp hn).2.2 hx hy

/-- On a valid input a smaller event leaves the queue before a greater one. -/
theorem RInv.processed_before {times : List (Int × Int)} (hv : Valid times) {c : Config}
    (h : RInv times c) {x y : Event}
    (hxy : evLt x y) (hy : y ∉ c.orderQueue) (hyq : y ∈ buildQueue (insertions times)) :
    x ∉ c.orderQueue := by
  obtain ⟨pre, hpre, hlt⟩ := h.processed_lt hv
  intro hxq
  rw [hpre, List.mem_append] at hyq
  rcases hyq with hyp | hyp
  · exact evLt_asymm hxy (hlt y hyp x hxq)
  · exact hy hyp

/-! ### The sequence of processed events -/

/-- C12. There is a valid input with an in-range target on which
`smallestChair` and the departures-first variant return different chairs:
on `times = [[4,6],[1,4]]`, `targetFriend = 0`, `smallestChair` returns `1`
(the arrival `(4,0)` of person 0 is processed before the departure `(4,1)` of
person 1, who still holds chair 0) and the variant returns `0`. -/
theorem tie_break_differs_from_departures_first :
    Valid [(4, 6), (1, 4)] ∧ (0 : Int) < (([(4, 6), (1, 4)] : List (Int × Int)).length : Nat) ∧
    smallestChair [(4, 6), (1, 4)] 0 = .returned 1 ∧
    smallestChairDeparturesFirst [(4, 6), (1, 4)] 0 = .returned 0 ∧
    smallestChair [(4, 6), (1, 4)] 0 ≠ smallestChairDeparturesFirst [(4, 6), (1, 4)] 0 ∧
    ({ orderQueue := [(4, 0), (4, 1), (6, 0)], chairMap := [-1, 0], chair := [1] } : Config) ∈
      runTrace [(4, 6), (1, 4)] 0 := by
  decide

/-! ### The kind-based variant -/

theorem buildKindQueue_perm (es : List KindEvent) : (buildKindQueue es).Perm es := by
  have key : ∀ (es q : List KindEvent),
      (es.foldl (fun q e => List.orderedInsert kindLe e q) q).Perm (es ++ q) := by
    intro es
    induction es with
    | nil => intro q; simp
    | cons e es ih =>
      intro q
      simp only [List.foldl_cons]
      refine (ih _).trans ?_
      refine (List.Perm.append_left es (List.perm_orderedInsert kindLe e q)).trans ?_
      exact (List.perm_middle : (es ++ e :: q).Perm (e :: (es ++ q)))
  simpa [buildKindQueue] using key es []

theorem buildKindQueue_sorted (es : List KindEvent) : (buildKindQueue es).Sorted kindLe := by
  have key : ∀ (es q : List KindEvent), q.Sorted kindLe →
      (es.foldl (fun q e => List.orderedInsert kindLe e q) q).Sorted kindLe := by
    intro es
    induction es with
    | nil => intro q hq; exact hq
    | cons e es ih =>
      intro q hq
      simp only [List.foldl_cons]
      exact ih _ (List.Sorted.orderedInsert e q hq)
  exact key es [] List.sorted_nil

theorem mem_kindInsertions {times : List (Int × Int)} {e : KindEvent} :
    e ∈ kindInsertions times ↔
      ∃ i, i < times.length ∧ (e = (departure times i, 0, i) ∨ e = (arrival times i, 1, i)) := by
  simp [kindInsertions]

/-- Forgetting the kinds gives the events of `insertions`. -/
theorem kindInsertions_untag (times : List (Int × Int)) :
    (kindInsertions times).map untag = insertions times := by
  unfold kindInsertions insertions
  generalize times.length = n
  induction n with
  | zero => rfl
  | succ n ih =>
    rw [List.range_succ, List.flatMap_append, List.flatMap_append, List.map_append, ih]
    simp [untag, depKey, arrKey]

/-- When no arrival time of a person is the leaving time of another person, the
kind-based order and the pair order sort the events of a valid input alike. -/
theorem kindQueue_eq {times : List (Int × Int)} (hv : Valid times)
    (hno : ∀ j, j < times.length → ∀ k, k < times.length → j ≠ k →
      arrival times k ≠ departure times j) :
    (buildKindQueue (kindInsertions times)).map untag = buildQueue (insertions times) := by
  apply List.eq_of_perm_of_sorted (r := evLe)
  · refine ((buildKindQueue_perm _).map untag).trans ?_
    rw [kindInsertions_untag]
    exact (buildQueue_perm _).symm
  · rw [List.Sorted, List.pairwise_map]
    refine List.Pairwise.imp_of_mem ?_ (buildKindQueue_sorted (kindInsertions times))
    intro a b ha hb hab
    have ha' := mem_kindInsertions.mp ((buildKindQueue_perm _).subset ha)
    have hb' := mem_kindInsertions.mp ((buildKindQueue_perm _).subset hb)
    obtain ⟨i, hi, ha'⟩ := ha'
    obtain ⟨k, hk, hb'⟩ := hb'
    have hvi := arrival_lt_departure hv hi
    have hvk := arrival_lt_departure hv hk
    unfold kindLe at hab
    unfold evLe untag
    rcases ha' with rfl | rfl <;> rcases hb' with rfl | rfl <;> simp only at hab ⊢
    · omega
    · by_cases hik : i = k
      · subst hik; omega
      · have := hno i hi k hk hik
        omega
    · omega
    · omega
  · exact buildQueue_sorted _

/-- C14. On every valid input in which no person's arrival time equals another
person's departure time, and for every target (the in-range ones included),
`smallestChair` returns the same chair as the variant that orders the events
by `(timestamp, departures before arrivals, person index)`: both run the same
loop from the same queue. -/
theorem smallestChair_eq_departures_first (times : List (Int × Int)) (hv : Valid times)
    (hno : ∀ j, j < times.length → ∀ k, k < times.length → j ≠ k →
      arrival times k ≠ departure times j) (t : Int) :
    smallestChair times t = smallestChairDeparturesFirst times t ∧
    (buildKindQueue (kindInsertions times)).map untag = buildQueue (insertions times) := by
  have h := kindQueue_eq hv hno
  refine ⟨?_, h⟩
  unfold smallestChair simulate smallestChairDeparturesFirst
  rw [h]

theorem smallestChair_eq_departures_first_witness :
    Valid [(3, 10), (1, 5), (2, 6)] ∧
    (∀ j, j < 3 → ∀ k, k < 3 → j ≠ k →
      arrival [(3, 10), (1, 5), (2, 6)] k ≠ departure [(3, 10), (1, 5), (2, 6)] j) ∧
    smallestChair [(3, 10), (1, 5), (2, 6)] 0 =
      smallestChairDeparturesFirst [(3, 10), (1, 5), (2, 6)] 0 :=
  ⟨by decide, by decide,
    (smallestChair_eq_departures_first [(3, 10), (1, 5), (2, 6)] (by decide) (by decide) 0).1⟩

/-! ### Dependence on the events up to the arrival of the target only -/

theorem mem_eventsUpTo {times : List (Int × Int)} {key : Event} {e : KindEvent} :
    e ∈ eventsUpTo times key ↔ e ∈ kindInsertions times ∧ evLe (untag e) key := by
  simp [eventsUpTo]

/-- An event of the first input up to `key` that also is an event of the second
input has the same time there. -/
theorem agree_of_eventsUpTo_subset {times1 times2 : List (Int × Int)} {key : Event}
    (h : ∀ e, e ∈ eventsUpTo times1 key → e ∈ eventsUpTo times2 key) {i : Nat}
    (hi : i < times1.length) :
    (evLe (arrKey times1 i) key → arrival times2 i = arrival times1 i) ∧
    (evLe (depKey times1 i) key → departure times2 i = departure times1 i) := by
  refine ⟨?_, ?_⟩
  · intro hle
    have hmem : (arrival times1 i, 1, i) ∈ eventsUpTo times1 key :=
      mem_eventsUpTo.mpr ⟨mem_kindInsertions.mpr ⟨i, hi, Or.inr rfl⟩, hle⟩
    obtain ⟨k, -, hk | hk⟩ := mem_kindInsertions.mp (mem_eventsUpTo.mp (h _ hmem)).1
    · simp only [Prod.mk.injEq] at hk
      omega
    · simp only [Prod.mk.injEq] at hk
      obtain ⟨h1, -, h3⟩ := hk
      subst h3
      exact h1.symm
  · intro hle
    have hmem : (departure times1 i, 0, i) ∈ eventsUpTo times1 key :=
      mem_eventsUpTo.mpr ⟨mem_kindInsertions.mpr ⟨i, hi, Or.inl rfl⟩, hle⟩
    obtain ⟨k, -, hk | hk⟩ := mem_kindInsertions.mp (mem_eventsUpTo.mp (h _ hmem)).1
    · simp only [Prod.mk.injEq] at hk
      obtain ⟨h1, -, h3⟩ := hk
      subst h3
      exact h1.symm
    · simp only [Prod.mk.injEq] at hk
      omega

theorem blocks_of_eventsUpTo {times1 times2 : List (Int × Int)} {key : Event}
    (hlen : times1.length = times2.length)
    (h12 : ∀ e, e ∈ eventsUpTo times1 key → e ∈ eventsUpTo times2 key)
    (h21 : ∀ e, e ∈ eventsUpTo times2 key → e ∈ eventsUpTo times1 key)
    {j k : Nat} (hj : j < times1.length) (hk : k < times1.length)
    (hkey : evLe (arrKey times1 k) key) (hb : Blocks times1 j k) : Blocks times2 j k := by
  obtain ⟨hb1, hb2⟩ := hb
  have hjkey : evLe (arrKey times1 j) key := evLe_trans (evLt_iff_le_ne.mp hb1).1 hkey
  have haj : arrKey times2 j = arrKey times1 j := by
    unfold arrKey
    rw [(agree_of_eventsUpTo_subset h12 hj).1 hjkey]
  have hak : arrKey times2 k = arrKey times1 k := by
    unfold arrKey
    rw [(agree_of_eventsUpTo_subset h12 hk).1 hkey]
  refine ⟨by rw [haj, hak]; exact hb1, ?_⟩
  by_contra hnot
  have hle : evLe (depKey times2 j) (arrKey times2 k) := evLe_of_not_evLt hnot
  have hdkey : evLe (depKey times2 j) key := by
    rw [hak] at hle
    exact evLe_trans hle hkey
  have hdj : depKey times1 j = depKey times2 j := by
    unfold depKey
    rw [(agree_of_eventsUpTo_subset h21 (hlen ▸ hj)).2 hdkey]
  rw [hak, ← hdj] at hle
  exact (evLt_iff_not_evLe.mp hb2) hle

/-- The reference seat of a person that arrives up to `key` is the same on two
inputs with the same events up to `key`. -/
theorem seatFuel_of_eventsUpTo {times1 times2 : List (Int × Int)} {key : Event}
    (hlen : times1.length = times2.length)
    (h12 : ∀ e, e ∈ eventsUpTo times1 key → e ∈ eventsUpTo times2 key)
    (h21 : ∀ e, e ∈ eventsUpTo times2 key → e ∈ eventsUpTo times1 key) :
    ∀ (f k : Nat), k < times1.length → evLe (arrKey times1 k) key →
      seatFuel times1 f k = seatFuel times2 f k := by
  intro f
  induction f with
  | zero => intro k _ _; rfl
  | succ f ih =>
    intro k hk hkey
    have hak : arrKey times2 k = arrKey times1 k := by
      unfold arrKey
      rw [(agree_of_eventsUpTo_subset h12 hk).1 hkey]
    have hbl : blockers times2 k = blockers times1 k := by
      unfold blockers
      rw [← hlen]
      apply List.filter_congr
      intro j hj
      have hj' := List.mem_range.mp hj
      rw [decide_eq_decide]
      constructor
      · intro hb
        exact blocks_of_eventsUpTo hlen.symm h21 h12 (hlen ▸ hj') (hlen ▸ hk)
          (by rw [hak]; exact hkey) hb
      · intro hb
        exact blocks_of_eventsUpTo hlen h12 h21 hj' hk hkey hb
    simp only [seatFuel]
    rw [hbl]
    congr 1
    apply List.map_congr_left
    intro j hj
    obtain ⟨hjn, hb⟩ := mem_blockers.mp hj
    exact ih j hjn (evLe_trans (evLt_iff_le_ne.mp hb.1).1 hkey)

/-- C13. For two valid inputs of the same length, the same in-range target `t`
and the same arrival time of `t`: if the two inputs have the same set of
kind-tagged events `(timestamp, kind, person)` with key `(timestamp, person)`
at most `(arrival_t, t)`, then `smallestChair` returns the same chair on both.
Nothing is assumed on the leaving time of the target nor on the persons that
arrive after the target, so the result does not depend on them. -/
theorem smallestChair_frame (times1 times2 : List (Int × Int)) (hv1 : Valid times1)
    (hv2 : Valid times2) (hlen : times1.length = times2.length) (t : Int) (h0 : 0 ≤ t)
    (h1 : t < times1.length)
    (harr : arrival times1 t.toNat = arrival times2 t.toNat)
    (hsame : ∀ e : KindEvent, e ∈ eventsUpTo times1 (arrKey times1 t.toNat) ↔
      e ∈ eventsUpTo times2 (arrKey times2 t.toNat)) :
    smallestChair times1 t = smallestChair times2 t := by
  have hk1 : t.toNat < times1.length := by omega
  have hk2 : t.toNat < times2.length := by omega
  have hkey : arrKey times2 t.toNat = arrKey times1 t.toNat := by
    unfold arrKey
    rw [harr]
  rw [hkey] at hsame
  have e1 := (smallestChair_returns_seat hv1 hk1).1
  have e2 := (smallestChair_returns_seat hv2 hk2).1
  rw [Int.toNat_of_nonneg h0] at e1 e2
  rw [e1, e2]
  have hseat : seat times1 t.toNat = seat times2 t.toNat := by
    unfold seat
    rw [← hlen]
    exact seatFuel_of_eventsUpTo hlen (fun e => (hsame e).mp) (fun e => (hsame e).mpr)
      _ _ hk1 (evLe_refl _)
  rw [hseat]

theorem smallestChair_frame_witness :
    Valid [(1, 4), (2, 3), (4, 6)] ∧ Valid [(1, 4), (2, 9), (7, 8)] ∧
    eventsUpTo [(1, 4), (2, 3), (4, 6)] (arrKey [(1, 4), (2, 3), (4, 6)] (Int.toNat 1)) =
      eventsUpTo [(1, 4), (2, 9), (7, 8)] (arrKey [(1, 4), (2, 9), (7, 8)] (Int.toNat 1)) ∧
    smallestChair [(1, 4), (2, 3), (4, 6)] 1 = smallestChair [(1, 4), (2, 9), (7, 8)] 1 :=
  ⟨by decide, by decide, by decide,
    smallestChair_frame [(1, 4), (2, 3), (4, 6)] [(1, 4), (2, 9), (7, 8)] (by decide) (by decide)
      (by decide) 1 (by decide) (by decide) (by decide)
      (fun e => by
        rw [show eventsUpTo [(1, 4), (2, 3), (4, 6)] (arrKey [(1, 4), (2, 3), (4, 6)] (Int.toNat 1)) =
          eventsUpTo [(1, 4), (2, 9), (7, 8)] (arrKey [(1, 4), (2, 9), (7, 8)] (Int.toNat 1))
          from by decide])⟩

/-! ### Reordering the input list -/

/-- A map of `0 .. n-1` into itself without collisions reaches every index. -/
theorem surj_of_inj_on_range {n : Nat} {p : Nat → Nat} (hp : ∀ i, i < n → p i < n)
    (hinj : ∀ i, i < n → ∀ j, j < n → p i = p j → i = j) {c : Nat} (hc : c < n) :
    ∃ i, i < n ∧ p i = c := by
  have hnd : ((List.range n).map p).Nodup := by
    refine List.Nodup.map_on ?_ (List.nodup_range n)
    intro x hx y hy hxy
    exact hinj x (List.mem_range.mp hx) y (List.mem_range.mp hy) hxy
  have hlt : ∀ x ∈ (List.range n).map p, x < ((List.range n).map p).length := by
    intro x hx
    obtain ⟨i, hi, rfl⟩ := List.mem_map.mp hx
    simpa using hp i (List.mem_range.mp hi)
  have hmem := mem_of_nodup_of_lt_length _ hnd hlt (c := c) (by simpa using hc)
  obtain ⟨i, hi, hic⟩ := List.mem_map.mp hmem
  exact ⟨i, List.mem_range.mp hi, hic⟩

/-- When timestamps of different persons differ, who occupies a chair at whose
arrival does not depend on the indices of the persons. -/
theorem blocks_reorder {times times' : List (Int × Int)} {p : Nat → Nat}
    (hdist : ∀ i, i < times.length → ∀ j, j < times.length → i ≠ j →
      arrival times i ≠ arrival times j ∧ arrival times i ≠ departure times j ∧
      departure times i ≠ departure times j)
    (hrow : ∀ i, i < times.length → times'.getD (p i) (0, 0) = times.getD i (0, 0))
    {j k : Nat} (hj : j < times.length) (hk : k < times.length) :
    Blocks times' (p j) (p k) ↔ Blocks times j k := by
  have haj : arrival times' (p j) = arrival times j := by unfold arrival; rw [hrow j hj]
  have hak : arrival times' (p k) = arrival times k := by unfold arrival; rw [hrow k hk]
  have hdj : departure times' (p j) = departure times j := by unfold departure; rw [hrow j hj]
  unfold Blocks evLt arrKey depKey
  simp only [haj, hak, hdj]
  by_cases hjk : j = k
  · subst hjk
    omega
  · have h1 := (hdist j hj k hk hjk).1
    have h2 := (hdist k hk j hj (Ne.symm hjk)).2.1
    omega

/-- The reference seat of a person does not depend on the position of the
person in the input list when timestamps of different persons differ. -/
theorem seat_reorder {times times' : List (Int × Int)} {p : Nat → Nat}
    (hdist : ∀ i, i < times.length → ∀ j, j < times.length → i ≠ j →
      arrival times i ≠ arrival times j ∧ arrival times i ≠ departure times j ∧
      departure times i ≠ departure times j)
    (hlen : times'.length = times.length)
    (hp : ∀ i, i < times.length → p i < times.length)
    (hinj : ∀ i, i < times.length → ∀ j, j < times.length → p i = p j → i = j)
    (hrow : ∀ i, i < times.length → times'.getD (p i) (0, 0) = times.getD i (0, 0)) :
    ∀ (r k : Nat), rank times k = r → k < times.length →
      seat times' (p k) = seat times k := by
  intro r
  induction r using Nat.strong_induction_on with
  | _ r ih =>
    intro k hr hk
    have hpk : p k < times'.length := by rw [hlen]; exact hp k hk
    have hspec := leastAbsent_spec ((blockers times k).map (seat times))
    rw [← seat_eq times hk] at hspec
    rw [seat_eq times' hpk]
    apply leastAbsent_eq
    · intro hmem
      obtain ⟨j', hj', hsj⟩ := List.mem_map.mp hmem
      obtain ⟨hj'n, hb⟩ := mem_blockers.mp hj'
      rw [hlen] at hj'n
      obtain ⟨j, hj, rfl⟩ := surj_of_inj_on_range hp hinj hj'n
      have hb' := (blocks_reorder hdist hrow hj hk).mp hb
      have hlt := rank_lt_rank hj hb'.1
      have hsj' := ih (rank times j) (by omega) j rfl hj
      apply hspec.1
      exact List.mem_map.mpr ⟨j, mem_blockers.mpr ⟨hj, hb'⟩, by omega⟩
    · intro c hc
      obtain ⟨j, hj, hjc⟩ := List.mem_map.mp (hspec.2 c hc)
      obtain ⟨hjn, hb⟩ := mem_blockers.mp hj
      have hlt := rank_lt_rank hjn hb.1
      have hsj' := ih (rank times j) (by omega) j rfl hjn
      refine List.mem_map.mpr ⟨p j, mem_blockers.mpr ⟨?_, ?_⟩, by omega⟩
      · rw [hlen]; exact hp j hjn
      · exact (blocks_reorder hdist hrow hjn hk).mpr hb

/-- C15. On every valid input in which no two events of different persons share
a timestamp, for every permutation `p` of the person indices and every in-range
target `t`: on the rows reordered by `p` (row `p i` of `times'` is row `i` of
`times`) with the target re-indexed to `p t`, `smallestChair` returns the same
chair as on the original input. -/
theorem smallestChair_reorder (times times' : List (Int × Int)) (p : Nat → Nat)
    (hv : Valid times)
    (hdist : ∀ i, i < times.length → ∀ j, j < times.length → i ≠ j →
      arrival times i ≠ arrival times j ∧ arrival times i ≠ departure times j ∧
      departure times i ≠ departure times j)
    (hlen : times'.length = times.length)
    (hp : ∀ i, i < times.length → p i < times.length)
    (hinj : ∀ i, i < times.length → ∀ j, j < times.length → p i = p j → i = j)
    (hrow : ∀ i, i < times.length → times'.getD (p i) (0, 0) = times.getD i (0, 0))
    (t : Int) (h0 : 0 ≤ t) (h1 : t < times.length) :
    smallestChair times' (p t.toNat : Nat) = smallestChair times t := by
  have hk : t.toNat < times.length := by omega
  have hv' : Valid times' := by
    intro row hrowmem
    obtain ⟨i', hi', rfl⟩ := List.getElem_of_mem hrowmem
    obtain ⟨i, hi, rfl⟩ := surj_of_inj_on_range hp hinj (hlen ▸ hi')
    have h2 : times'[p i] = times[i] := by
      have := hrow i hi
      simpa [List.getD, hi', hi] using this
    rw [h2]
    exact hv _ (List.getElem_mem _)
  have e1 := (smallestChair_returns_seat hv' (k := p t.toNat) (by rw [hlen]; exact hp _ hk)).1
  have e2 := (smallestChair_returns_seat hv hk).1
  rw [Int.toNat_of_nonneg h0] at e2
  rw [e1, e2, seat_reorder hdist hlen hp hinj hrow _ _ rfl hk]

theorem smallestChair_reorder_witness :
    Valid [(3, 10), (1, 5), (2, 6)] ∧
    (∀ i, i < 3 → ([(1, 5), (3, 10), (2, 6)] : List (Int × Int)).getD
        ((fun i => if i = 0 then 1 else if i = 1 then 0 else i) i) (0, 0) =
      ([(3, 10), (1, 5), (2, 6)] : List (Int × Int)).getD i (0, 0)) ∧
    smallestChair [(1, 5), (3, 10), (2, 6)] 1 = smallestChair [(3, 10), (1, 5), (2, 6)] 0 :=
  ⟨by decide, by decide,
    smallestChair_reorder [(3, 10), (1, 5), (2, 6)] [(1, 5), (3, 10), (2, 6)]
      (fun i => if i = 0 then 1 else if i = 1 then 0 else i)
      (by decide) (by decide) (by decide) (by decide) (by decide) (by decide) 0
      (by decide) (by decide)⟩

end ChairSim
